import Mathlib

/-!
Shallow embedding of vtkPhyloXMLTreeWriter (IO/Infovis/vtkPhyloXMLTreeWriter.cxx).

The writer serializes a rooted tree with per-node (vertex) and per-edge typed
attribute columns into a PhyloXML element tree.  The embedding mirrors the
source function-by-function:

* vtkVariant           becomes `Variant` (type name string, ToString rendering,
  ToDouble rendering as written by SetDoubleAttribute);
* vtkAbstractArray     becomes `Column` (name, information entries, per-row
  variant values, downcast-to-vtkUnsignedCharArray success flag, component
  layout used by GetComponent);
* vtkXMLDataElement    becomes `XMLElem` (name, ordered attributes, character
  data, nested elements in append order);
* vtkTree              becomes `TreeData` (vertex columns, edge columns,
  (parent, child) to edge-id map) plus the rose tree `RTree` giving the root,
  the ordered children enumeration and the vertex ids; the parent of a vertex
  is the vertex we recursed from (the vtkTree invariant);
* the Blacklist (vtkStringArray with InsertNextValue / LookupValue) becomes the
  `bl` list of `WState`; `WState.emitted` is a ghost trace recording every
  WritePropertyElement invocation as (column name, row), where row = none is
  the vertex == -1 tree-level sentinel.  The trace changes no other output.

Out-of-bounds row or component reads (undefined behavior in the C++) and the
null-pointer dereference in WritePropertyElement's information scan are
modelled by returning `none`; every writer function is therefore Option-valued.

Stream failures are modelled by the two flags passed to `writeData`:
`startFail` (os.fail() after the StartFile flush) and `endFail` (os.fail()
after the EndFile flush).  `PWriter.errorCode` records that
SetErrorCode(vtkErrorCode::GetLastSystemError()) ran.
-/

/-- One entry of a vtkInformation object attached to an array: the key's name,
whether the key is a vtkInformationStringKey (SafeDownCast succeeds), and the
stored string value. -/
structure InfoEntry where
  name : String
  isString : Bool
  value : String
deriving DecidableEq, Repr

/-- A vtkVariant: GetTypeAsString, ToString, and the text that
SetDoubleAttribute writes for ToDouble. -/
structure Variant where
  typeName : String
  str : String
  dbl : String
deriving DecidableEq, Repr

/-- A vtkAbstractArray: name, information entries (in iteration order), the
per-row variants returned by GetVariantValue, whether
vtkArrayDownCast to vtkUnsignedCharArray succeeds, and the flat component
buffer read by GetComponent (row i, component j reads index
i * numComps + j). -/
structure Column where
  name : String
  info : List InfoEntry
  values : List Variant
  isUChar : Bool
  numComps : Nat
  comps : List String
deriving DecidableEq, Repr

/-- A vtkXMLDataElement: name, attributes in the order they were set,
character data, nested elements in the order they were added. -/
inductive XMLElem where
  | elem : String → List (String × String) → String → List XMLElem → XMLElem
deriving Repr

/-- Name of an element. -/
def XMLElem.name : XMLElem → String
  | .elem n _ _ _ => n

/-- Attributes of an element. -/
def XMLElem.attrs : XMLElem → List (String × String)
  | .elem _ a _ _ => a

/-- Character data of an element. -/
def XMLElem.cdata : XMLElem → String
  | .elem _ _ d _ => d

/-- Nested elements of an element. -/
def XMLElem.kids : XMLElem → List XMLElem
  | .elem _ _ _ k => k

/-- The input tree's shape: a vertex id together with the children in the
order reported by GetChild(vertex, 0), GetChild(vertex, 1), ... -/
inductive RTree where
  | node : Nat → List RTree → RTree
deriving Repr

/-- The columns of the tree: GetVertexData() arrays in index order,
GetEdgeData() arrays in index order, and the GetEdgeId(parent, child) map. -/
structure TreeData where
  vdata : List Column
  edata : List Column
  edges : List ((Nat × Nat) × Nat)
deriving Repr

/-- The per-write mutable state: the Blacklist contents (in insertion order)
and the ghost trace of WritePropertyElement invocations (column name, row;
row = none models the vertex == -1 tree-level sentinel). -/
structure WState where
  bl : List String
  emitted : List (String × Option Nat)
deriving DecidableEq, Repr

/-- The writer instance state that survives across WriteData calls: the two
configurable array names, the Blacklist field (allocated empty in the
constructor), and whether SetErrorCode recorded a system error. -/
structure PWriter where
  edgeWeightArrayName : String
  nodeNameArrayName : String
  blacklist : List String
  errorCode : Bool
deriving DecidableEq, Repr

/-- The constructor vtkPhyloXMLTreeWriter(): default array names "weight" and
"node name", Blacklist freshly allocated (empty). -/
def newWriter : PWriter :=
  { edgeWeightArrayName := "weight"
    nodeNameArrayName := "node name"
    blacklist := []
    errorCode := false }

/-- GetAbstractArray(name): the first column with that name, if any. -/
def findArray (cols : List Column) (n : String) : Option Column :=
  cols.find? (fun c => c.name = n)

/-- Index of the first column with the given name (used to model pointer
identity of the cached NodeNameArray against the scanned vertex arrays). -/
def findArrayIdx (cols : List Column) (n : String) : Option Nat :=
  cols.findIdx? (fun c => c.name = n)

/-- GetEdgeId(parent, child): lookup in the edge map, -1 (none) if absent. -/
def lookupEdge (edges : List ((Nat × Nat) × Nat)) (p v : Nat) : Option Nat :=
  (edges.find? (fun pr => pr.1 = (p, v))).map (fun pr => pr.2)

/-- InsertNextValue on the Blacklist: appends. -/
def ignoreArray (bl : List String) (n : String) : List String := bl ++ [n]

/-- GetArrayAttribute(array, attributeName): scan the information entries in
order; the first entry whose key name matches AND whose key downcasts to a
string key yields its value; a matching key that is not a string key is
guarded (the null check on the downcast) and skipped; otherwise "". -/
def getArrayAttribute (info : List InfoEntry) (attr : String) : String :=
  match info.find? (fun e => e.name = attr && e.isString) with
  | some e => e.value
  | none => ""

/-- The information scan at the top of WritePropertyElement: accumulates the
last-seen values for keys "authority", "applies_to" and "unit".  The scan
downcasts each key to vtkInformationStringKey and calls GetName() on the
result without a null check, so the first entry whose key is not a string key
dereferences a null pointer: modelled as `none`. -/
def scanPropAttrs : List InfoEntry → String × String × String → Option (String × String × String)
  | [], acc => some acc
  | e :: rest, (a, ap, u) =>
    if e.isString then
      if e.name = "authority" then scanPropAttrs rest (e.value, ap, u)
      else if e.name = "applies_to" then scanPropAttrs rest (a, e.value, u)
      else if e.name = "unit" then scanPropAttrs rest (a, ap, e.value)
      else scanPropAttrs rest (a, ap, u)
    else none

/-- List-of-chars test: pat begins the list s. -/
def leadsWithL : List Char → List Char → Bool
  | [], _ => true
  | _ :: _, [] => false
  | p :: ps, c :: cs => p = c && leadsWithL ps cs

/-- String test modelling std::string::compare(0, pat.length(), pat) == 0. -/
def leadsWith (pat s : String) : Bool := leadsWithL pat.data s.data

/-- First index at which pat occurs in s (std::string::find). -/
def findSub (pat : List Char) : List Char → Option Nat
  | [] => if pat.isEmpty then some 0 else none
  | c :: cs =>
    if leadsWithL pat (c :: cs) then some 0
    else (findSub pat cs).map (fun i => i + 1)

/-- The "ref" local-name computation of WritePropertyElement: find the FIRST
occurrence of "property." anywhere in the array name; if found, keep the
substring after it, otherwise keep the whole name (the substr length
argument arrayName.size() - strBegin + 1 over-counts by one and is clamped,
so it always takes the tail). -/
def stripPropName (s : String) : String :=
  match findSub "property.".data s.data with
  | none => s
  | some i => String.mk (s.data.drop (i + "property.".data.length))

/-- The datatype inference of WritePropertyElement: start from "xsd:string";
a first (unchained) if handles short/long/float/double; a second if-else
chain handles the remaining variant type names. -/
def inferDatatype (t : String) : String :=
  let d := "xsd:string"
  let d := if t = "short" || t = "long" || t = "float" || t = "double" then
    "xsd:" ++ t else d
  if t = "int" then "xsd:integer"
  else if t = "bit" then "xsd:boolean"
  else if t = "char" || t = "signed char" then "xsd:byte"
  else if t = "unsigned char" then "xsd:unsignedByte"
  else if t = "unsigned short" then "xsd:unsignedShort"
  else if t = "unsigned int" then "xsd:unsignedInt"
  else if t = "unsigned long" || t = "unsigned __int64" || t = "idtype" then
    "xsd:unsignedLong"
  else if t = "__int64" then "xsd:long"
  else d

/-- Spec-side restatement of the datatype mapping for the refinement claim:
a lookup table from variant kind to XML Schema token with the xsd:string
fallback (written from the spec's wording, to be compared with
`inferDatatype`). -/
def xsdTokenTable : List (String × String) :=
  [("bit", "xsd:boolean"),
   ("char", "xsd:byte"), ("signed char", "xsd:byte"),
   ("unsigned char", "xsd:unsignedByte"),
   ("short", "xsd:short"), ("unsigned short", "xsd:unsignedShort"),
   ("int", "xsd:integer"), ("unsigned int", "xsd:unsignedInt"),
   ("long", "xsd:long"), ("unsigned long", "xsd:unsignedLong"),
   ("__int64", "xsd:long"), ("unsigned __int64", "xsd:unsignedLong"),
   ("idtype", "xsd:unsignedLong"),
   ("float", "xsd:float"), ("double", "xsd:double")]

/-- Spec-side total datatype function: table lookup with xsd:string fallback. -/
def specDatatype (t : String) : String :=
  ((xsdTokenTable.find? (fun p => p.1 = t)).map (fun p => p.2)).getD "xsd:string"

/-- WritePropertyElement(array, vertex, element).  row = none models
vertex == -1 (tree-level sentinel: use row 0 and IgnoreArray the name).
Returns the property element and the updated state, or none on the
information-scan null dereference or an out-of-range row read. -/
def writeProperty (c : Column) (row : Option Nat) (st : WState) :
    Option (XMLElem × WState) :=
  match scanPropAttrs c.info ("", "", "") with
  | none => none
  | some (a0, ap0, unit0) =>
    let authority := if a0 = "" then "VTK" else a0
    let appliesTo := if ap0 = "" then "clade" else ap0
    let ref := authority ++ ":" ++ stripPropName c.name
    let v := match row with | none => 0 | some r => r
    let bl1 := match row with | none => ignoreArray st.bl c.name | some _ => st.bl
    match c.values[v]? with
    | none => none
    | some var =>
      let datatype := inferDatatype var.typeName
      let attrs := [("datatype", datatype), ("ref", ref), ("applies_to", appliesTo)]
        ++ (if unit0 = "" then [] else [("unit", unit0)])
      some (XMLElem.elem "property" attrs var.str [],
        { bl := bl1, emitted := st.emitted ++ [(c.name, row)] })

/-- WriteBranchLengthAttribute: if the cached EdgeWeightArray is non-null,
set branch_length from the weight at the resolved edge (when the vertex has a
parent and the edge id resolves) and then insert the array name into the
Blacklist unless already present.  Returns the attribute list for the clade
element.  eid is GetEdgeId(GetParent(vertex), vertex), none when the vertex
is the root or the edge does not resolve. -/
def writeBranchLength (ewa : Option Column) (eid : Option Nat) (st : WState) :
    Option (List (String × String) × WState) :=
  match ewa with
  | none => some ([], st)
  | some c =>
    let attrStep : Option (List (String × String)) :=
      match eid with
      | none => some []
      | some e =>
        match c.values[e]? with
        | none => none
        | some var => some [("branch_length", var.dbl)]
    match attrStep with
    | none => none
    | some attrs =>
      let bl' := if st.bl.contains c.name then st.bl else ignoreArray st.bl c.name
      some (attrs, { st with bl := bl' })

/-- WriteNameElement: if the cached NodeNameArray is non-null, read this
vertex's value; a non-empty ToString yields a nested name element; then the
guarded Blacklist insert of the array name. -/
def writeNameElem (nna : Option Column) (v : Nat) (st : WState) :
    Option (List XMLElem × WState) :=
  match nna with
  | none => some ([], st)
  | some c =>
    match c.values[v]? with
    | none => none
    | some var =>
      let els := if var.str = "" then [] else [XMLElem.elem "name" [] var.str []]
      let bl' := if st.bl.contains c.name then st.bl else ignoreArray st.bl c.name
      some (els, { st with bl := bl' })

/-- WriteConfidenceElement: look up the vertex array literally named
"confidence"; a non-empty value yields a confidence element with an optional
type attribute from GetArrayAttribute; then the guarded Blacklist insert of
the literal "confidence". -/
def writeConfidence (vdata : List Column) (v : Nat) (st : WState) :
    Option (List XMLElem × WState) :=
  match findArray vdata "confidence" with
  | none => some ([], st)
  | some c =>
    match c.values[v]? with
    | none => none
    | some var =>
      let els :=
        if var.str = "" then []
        else
          let ty := getArrayAttribute c.info "type"
          let at0 := if ty = "" then [] else [("type", ty)]
          [XMLElem.elem "confidence" at0 var.str []]
      let bl' := if st.bl.contains "confidence" then st.bl else ignoreArray st.bl "confidence"
      some (els, { st with bl := bl' })

/-- WriteColorElement: look up the vertex array literally named "color" and
downcast it to vtkUnsignedCharArray; on downcast failure return with no
output and no Blacklist change; otherwise read components 0, 1 and 2 of this
vertex's tuple (an index past the flat buffer is undefined behavior: none),
emit the color element with nested red/green/blue, and do the guarded
Blacklist insert of the literal "color".  The component count is never
checked. -/
def writeColor (vdata : List Column) (v : Nat) (st : WState) :
    Option (List XMLElem × WState) :=
  match findArray vdata "color" with
  | none => some ([], st)
  | some c =>
    if c.isUChar then
      match c.comps[v * c.numComps]?, c.comps[v * c.numComps + 1]?,
        c.comps[v * c.numComps + 2]? with
      | some r, some g, some b =>
        let colorEl := XMLElem.elem "color" [] ""
          [XMLElem.elem "red" [] r [], XMLElem.elem "green" [] g [],
           XMLElem.elem "blue" [] b []]
        let bl' := if st.bl.contains "color" then st.bl else ignoreArray st.bl "color"
        some ([colorEl], { st with bl := bl' })
      | _, _, _ => none
    else some ([], st)

/-- The residual-column loop of WriteCladeElement: iterate the vertex arrays
in index order; skip the array that IS the cached NodeNameArray (pointer
identity, modelled by index; the cached EdgeWeightArray is an edge array and
is never pointer-identical to a vertex array); skip any array whose name the
Blacklist already holds; write the rest as property elements at this
vertex. -/
def propScan (nnaIdx : Option Nat) (v : Nat) : Nat → List Column → WState →
    Option (List XMLElem × WState)
  | _, [], st => some ([], st)
  | i, c :: rest, st =>
    if nnaIdx = some i then propScan nnaIdx v (i + 1) rest st
    else if st.bl.contains c.name then propScan nnaIdx v (i + 1) rest st
    else
      match writeProperty c (some v) st with
      | none => none
      | some (e, st') =>
        match propScan nnaIdx v (i + 1) rest st' with
        | none => none
        | some (es, st'') => some (e :: es, st'')

/-- WriteTreeLevelElement(input, rootElement, elementName, attributeName):
look up the vertex array named "phylogeny." ++ elementName; when present,
emit an element with the row-0 value as character data (plus the requested
attribute when GetArrayAttribute yields a non-empty value) and append the
array name to the Blacklist (unguarded InsertNextValue). -/
def writeTreeLevelElement (vdata : List Column) (elementName attributeName : String)
    (st : WState) : Option (List XMLElem × WState) :=
  let arrayName := "phylogeny." ++ elementName
  match findArray vdata arrayName with
  | none => some ([], st)
  | some c =>
    match c.values[0]? with
    | none => none
    | some var =>
      let at0 :=
        if attributeName ≠ "" then
          let av := getArrayAttribute c.info attributeName
          if av ≠ "" then [(attributeName, av)] else []
        else []
      some ([XMLElem.elem elementName at0 var.str []],
        { st with bl := ignoreArray st.bl arrayName })

/-- WriteTreeLevelProperties: every vertex array whose name begins with
"phylogeny.property." is written as a tree-level property (vertex == -1
sentinel). -/
def writeTreeProps : List Column → WState → Option (List XMLElem × WState)
  | [], st => some ([], st)
  | c :: rest, st =>
    if leadsWith "phylogeny.property." c.name then
      match writeProperty c none st with
      | none => none
      | some (e, st') =>
        match writeTreeProps rest st' with
        | none => none
        | some (es, st'') => some (e :: es, st'')
    else writeTreeProps rest st

mutual
/-- WriteCladeElement(input, vertex, parentElement): build the clade element
for one vertex — branch length attribute, name, confidence and color
elements, residual property elements, then the recursive children clades in
tree-reported order, appended after this vertex's own content.  parent is
GetParent(vertex) (none at the root). -/
def writeClade (d : TreeData) (ewa nna : Option Column) (nnaIdx : Option Nat) :
    Option Nat → RTree → WState → Option (XMLElem × WState)
  | parent, .node v cs, st =>
    match writeBranchLength ewa
      (parent.bind (fun p => lookupEdge d.edges p v)) st with
    | none => none
    | some (attrs, st1) =>
      match writeNameElem nna v st1 with
      | none => none
      | some (nameEls, st2) =>
        match writeConfidence d.vdata v st2 with
        | none => none
        | some (confEls, st3) =>
          match writeColor d.vdata v st3 with
          | none => none
          | some (colorEls, st4) =>
            match propScan nnaIdx v 0 d.vdata st4 with
            | none => none
            | some (propEls, st5) =>
              match writeCladeList d ewa nna nnaIdx v cs st5 with
              | none => none
              | some (kidEls, st6) =>
                some (XMLElem.elem "clade" attrs ""
                  (nameEls ++ confEls ++ colorEls ++ propEls ++ kidEls), st6)

/-- The child loop of WriteCladeElement: children in GetChild order, each a
fresh recursive call threading the state. -/
def writeCladeList (d : TreeData) (ewa nna : Option Column) (nnaIdx : Option Nat) :
    Nat → List RTree → WState → Option (List XMLElem × WState)
  | _, [], st => some ([], st)
  | pv, t :: ts, st =>
    match writeClade d ewa nna nnaIdx (some pv) t st with
    | none => none
    | some (e, st') =>
      match writeCladeList d ewa nna nnaIdx pv ts st' with
      | none => none
      | some (es, st'') => some (e :: es, st'')
end

/-- WriteData(): resolve the EdgeWeightArray and NodeNameArray by their
configured names, StartFile (on flush failure set the system error code and
return 0), build the phylogeny element with rooted="true", write the
tree-level name/description/confidence elements and tree-level properties,
write the root clade, print, EndFile (on flush failure set the system error
code — but WriteData discards EndFile's return value and returns 1).
The Blacklist field is whatever the writer instance holds (the constructor
made it empty; WriteData never clears it).  Returns
(return value, printed phylogeny element, writer after the call, ghost
emission trace of this call). -/
def writeData (w : PWriter) (d : TreeData) (root : RTree) (startFail endFail : Bool) :
    Option (Nat × Option XMLElem × PWriter × List (String × Option Nat)) :=
  let ewa := findArray d.edata w.edgeWeightArrayName
  let nnaIdx := findArrayIdx d.vdata w.nodeNameArrayName
  let nna := nnaIdx.bind (fun i => d.vdata[i]?)
  if startFail then some (0, none, { w with errorCode := true }, [])
  else
    match writeTreeLevelElement d.vdata "name" "" ⟨w.blacklist, []⟩ with
    | none => none
    | some (els1, st1) =>
      match writeTreeLevelElement d.vdata "description" "" st1 with
      | none => none
      | some (els2, st2) =>
        match writeTreeLevelElement d.vdata "confidence" "type" st2 with
        | none => none
        | some (els3, st3) =>
          match writeTreeProps d.vdata st3 with
          | none => none
          | some (els4, st4) =>
            match writeClade d ewa nna nnaIdx none root st4 with
            | none => none
            | some (cladeEl, st5) =>
              some (1,
                some (XMLElem.elem "phylogeny" [("rooted", "true")] ""
                  (els1 ++ els2 ++ els3 ++ els4 ++ [cladeEl])),
                { w with blacklist := st5.bl, errorCode := w.errorCode || endFail },
                st5.emitted)

mutual
/-- Number of clade elements in an element tree (the element itself
included when named "clade"). -/
def countClades : XMLElem → Nat
  | .elem n _ _ ks => (if n = "clade" then 1 else 0) + countCladesL ks

/-- Number of clade elements in a forest. -/
def countCladesL : List XMLElem → Nat
  | [] => 0
  | k :: ks => countClades k + countCladesL ks
end

/-- A bare ordered tree shape. -/
inductive Shape where
  | node : List Shape → Shape
deriving Repr

mutual
/-- The clade-nesting shape of an element: its clade-named nested elements,
in order, recursively. -/
def cladeShape : XMLElem → Shape
  | .elem _ _ _ ks => .node (cladeShapesL ks)

/-- The clade shapes of the clade-named elements of a forest, in order. -/
def cladeShapesL : List XMLElem → List Shape
  | [] => []
  | k :: ks =>
    (if k.name = "clade" then [cladeShape k] else []) ++ cladeShapesL ks
end

mutual
/-- The shape of an input tree. -/
def shapeOf : RTree → Shape
  | .node _ cs => .node (shapeOfL cs)

/-- The shapes of a forest of input trees. -/
def shapeOfL : List RTree → List Shape
  | [] => []
  | t :: ts => shapeOf t :: shapeOfL ts
end

mutual
/-- Number of nodes of an input tree. -/
def numNodes : RTree → Nat
  | .node _ cs => 1 + numNodesL cs

/-- Number of nodes of a forest of input trees. -/
def numNodesL : List RTree → Nat
  | [] => 0
  | t :: ts => numNodes t + numNodesL ts
end

/-- Test whether pat occurs in s at position i (spec-side notion used to
characterize std::string::find). -/
def occursAtB (pat s : List Char) (i : Nat) : Bool := leadsWithL pat (s.drop i)

/-- The empty tree data (no columns, no edges). -/
def tdEmpty : TreeData := ⟨[], [], []⟩

/-- A column whose name holds "property." only in a non-leading position. -/
def c5col : Column := ⟨"x.property.y", [], [⟨"string", "forest", "0"⟩], false, 1, []⟩

/-- The spec's scenario column property.habitat with value "forest". -/
def c5wcol : Column := ⟨"property.habitat", [], [⟨"string", "forest", "0"⟩], false, 1, []⟩

/-- A vertex column named color that fails the unsigned-char downcast. -/
def colorNotByte : Column := ⟨"color", [], [⟨"double", "0.5", "0.5"⟩], false, 1, []⟩

/-- A one-component unsigned-char color column over one vertex: reading
component 1 or 2 of vertex 0 runs past the buffer. -/
def colorOneComp : Column := ⟨"color", [], [⟨"unsigned char", "5", "5"⟩], true, 1, ["5"]⟩

/-- A two-component unsigned-char color column over two vertices: not a
3-component column, yet the downcast succeeds and components 0, 1, 2 of
vertex 0 are all inside the flat buffer. -/
def colorTwoComp : Column :=
  ⟨"color", [], [⟨"unsigned char", "1", "1"⟩, ⟨"unsigned char", "3", "3"⟩], true, 2,
    ["1", "2", "3", "4"]⟩

/-- Tree data holding a single tree-level column phylogeny.name. -/
def c6td : TreeData :=
  ⟨[⟨"phylogeny.name", [], [⟨"string", "Primate", "0"⟩], false, 1, []⟩], [], []⟩

/-- Tree data whose only vertex column is a malformed (non-byte) color
column. -/
def c2td : TreeData := ⟨[colorNotByte], [], []⟩

/-- Vertex columns for the two-node witness tree: node name, confidence
(with a type information key), a 3-component byte color, the tree-level
phylogeny.name, a tree-level property column, and a residual habitat
column. -/
def wtNameCol : Column :=
  ⟨"node name", [], [⟨"string", "root", ""⟩, ⟨"string", "leafA", ""⟩], false, 1, []⟩

/-- Confidence column of the witness tree. -/
def wtConfCol : Column :=
  ⟨"confidence", [⟨"type", true, "bootstrap"⟩],
    [⟨"double", "0.9", "0.9"⟩, ⟨"double", "0.8", "0.8"⟩], false, 1, []⟩

/-- Well-formed 3-component byte color column of the witness tree. -/
def wtColorCol : Column :=
  ⟨"color", [], [⟨"unsigned char", "255", ""⟩, ⟨"unsigned char", "10", ""⟩], true, 3,
    ["255", "0", "0", "10", "20", "30"]⟩

/-- Tree-level phylogeny.name column of the witness tree. -/
def wtPhyNameCol : Column :=
  ⟨"phylogeny.name", [], [⟨"string", "Primate phylogeny", ""⟩, ⟨"string", "", ""⟩],
    false, 1, []⟩

/-- Tree-level property column of the witness tree. -/
def wtPhyPropCol : Column :=
  ⟨"phylogeny.property.x", [], [⟨"int", "4", "4"⟩, ⟨"int", "5", "5"⟩], false, 1, []⟩

/-- Residual generic column of the witness tree. -/
def wtHabitatCol : Column :=
  ⟨"habitat", [], [⟨"string", "forest", ""⟩, ⟨"string", "sea", ""⟩], false, 1, []⟩

/-- Edge weight column of the witness tree (one edge). -/
def wtWeightCol : Column := ⟨"weight", [], [⟨"double", "1.5", "1.5"⟩], false, 1, []⟩

/-- The two-node witness tree data exercising all five fixed categories. -/
def wtTD : TreeData :=
  ⟨[wtNameCol, wtConfCol, wtColorCol, wtPhyNameCol, wtPhyPropCol, wtHabitatCol],
    [wtWeightCol], [((0, 1), 0)]⟩

/-- Root of the two-node witness tree. -/
def wtRoot : RTree := .node 0 [.node 1 []]

/-- A vertex-scope column that happens to carry the same name as the edge
weight column. -/
def c9vCol : Column :=
  ⟨"weight", [], [⟨"double", "3.5", "3.5"⟩, ⟨"double", "4.5", "4.5"⟩], false, 1, []⟩

/-- Tree data with an edge-scope weight column and a distinct vertex-scope
column of the identical name. -/
def c9td : TreeData := ⟨[c9vCol], [wtWeightCol], [((0, 1), 0)]⟩

/-- The spec's three-node scenario: root with two leaves, edge weights 1.5
and 2.25, node names root/leafA/leafB. -/
def c1td : TreeData :=
  ⟨[⟨"node name", [],
      [⟨"string", "root", ""⟩, ⟨"string", "leafA", ""⟩, ⟨"string", "leafB", ""⟩],
      false, 1, []⟩],
    [⟨"weight", [], [⟨"double", "1.5", "1.5"⟩, ⟨"double", "2.25", "2.25"⟩], false, 1, []⟩],
    [((0, 1), 0), ((0, 2), 1)]⟩

/-- Root of the three-node scenario tree. -/
def c1root : RTree := .node 0 [.node 1 [], .node 2 []]

/-- One write state extends another: the Blacklist and the emission trace
only ever grow by appending. -/
def stExt (st st' : WState) : Prop :=
  (∃ e1, st'.bl = st.bl ++ e1) ∧ (∃ e2, st'.emitted = st.emitted ++ e2)

/-- The names that the per-clade fixed steps (branch length, name,
confidence, color) are guaranteed to have inserted into the Blacklist by the
end of any successful clade: the resolved edge-weight column's name, the
resolved node-name column's name, the literal "confidence" when such a
vertex column exists, and the literal "color" when a byte color vertex
column exists. -/
def gNames (vdata : List Column) (ewa nna : Option Column) (m : String) : Prop :=
  (∃ c, ewa = some c ∧ m = c.name) ∨
  (∃ c, nna = some c ∧ m = c.name) ∨
  (m = "confidence" ∧ (findArray vdata "confidence").isSome = true) ∨
  (m = "color" ∧ ∃ c, findArray vdata "color" = some c ∧ c.isUChar = true)

/-- The names inserted into the Blacklist by the tree-level passes: the
present phylogeny.name / phylogeny.description / phylogeny.confidence
columns and every phylogeny.property.-led vertex column. -/
def treeNames (vdata : List Column) (n : String) : Prop :=
  (∃ en, (en = "name" ∨ en = "description" ∨ en = "confidence") ∧
    n = "phylogeny." ++ en ∧ (findArray vdata ("phylogeny." ++ en)).isSome = true) ∨
  (∃ c ∈ vdata, leadsWith "phylogeny.property." c.name = true ∧ n = c.name)

/-- Strong induction principle for the nested rose tree. -/
def RTree.myInd {P : RTree → Prop}
    (h : ∀ v cs, (∀ t ∈ cs, P t) → P (RTree.node v cs)) : ∀ t, P t
  | .node v cs => h v cs (fun t _ => RTree.myInd h t)
termination_by t => sizeOf t
decreasing_by
  have := List.sizeOf_lt_of_mem (by assumption)
  simp only [RTree.node.sizeOf_spec]
  omega

theorem findSub_some {pat : List Char} :
    ∀ {s i}, findSub pat s = some i →
      occursAtB pat s i = true ∧ ∀ j < i, occursAtB pat s j = false := by
  intro s
  induction s with
  | nil =>
    intro i h
    simp only [findSub] at h
    split at h
    · cases h
      refine ⟨?_, by omega⟩
      simp_all [occursAtB, leadsWithL, List.isEmpty_iff]
    · cases h
  | cons c cs ih =>
    intro i h
    simp only [findSub] at h
    split at h
    · cases h
      exact ⟨by simpa [occursAtB] using (by assumption), by omega⟩
    · rcases Option.map_eq_some'.mp h with ⟨k, hk, rfl⟩
      rcases ih hk with ⟨h1, h2⟩
      refine ⟨by simpa [occursAtB] using h1, ?_⟩
      intro j hj
      cases j with
      | zero => simpa [occursAtB] using Bool.eq_false_iff.mpr (by assumption)
      | succ j' => simpa [occursAtB] using h2 j' (by omega)

theorem findSub_none {pat : List Char} (hne : pat ≠ []) :
    ∀ {s}, findSub pat s = none → ∀ j, occursAtB pat s j = false := by
  intro s
  induction s with
  | nil =>
    intro h j
    cases pat with
    | nil => exact absurd rfl hne
    | cons p ps => simp [occursAtB, leadsWithL]
  | cons c cs ih =>
    intro h j
    simp only [findSub] at h
    split at h
    · cases h
    · cases j with
      | zero => simpa [occursAtB] using Bool.eq_false_iff.mpr (by assumption)
      | succ j' =>
        simp only [Option.map_eq_none'] at h
        simpa [occursAtB] using ih h j'

/-- C4.  The datatype inference of WritePropertyElement is a total function
from the variant's runtime kind string to an XML Schema token, agreeing with
the spec's table everywhere: bit maps to xsd:boolean, char and signed char to
xsd:byte, unsigned char to xsd:unsignedByte, short/long/float/double to
"xsd:" plus that name, int to xsd:integer, the unsigned widths to the
corresponding xsd:unsigned tokens, __int64 to xsd:long, unsigned __int64 and
idtype to xsd:unsignedLong, and every other kind (strings included) to the
xsd:string fallback; it never fails. -/
theorem C4_datatype_total : ∀ t, inferDatatype t = specDatatype t := by
  intro t
  by_cases h : t ∈ ["bit", "char", "signed char", "unsigned char", "short",
    "unsigned short", "int", "unsigned int", "long", "unsigned long",
    "__int64", "unsigned __int64", "idtype", "float", "double"]
  · fin_cases h <;> rfl
  · simp only [List.mem_cons, List.not_mem_nil, or_false, not_or] at h
    obtain ⟨h1, h2, h3, h4, h5, h6, h7, h8, h9, h10, h11, h12, h13, h14, h15⟩ := h
    simp [inferDatatype, specDatatype, xsdTokenTable,
      h1, h2, h3, h4, h5, h6, h7, h8, h9, h10, h11, h12, h13, h14, h15,
      Ne.symm h1, Ne.symm h2, Ne.symm h3, Ne.symm h4, Ne.symm h5, Ne.symm h6,
      Ne.symm h7, Ne.symm h8, Ne.symm h9, Ne.symm h10, Ne.symm h11,
      Ne.symm h12, Ne.symm h13, Ne.symm h14, Ne.symm h15]

/-- C5 counterexample.  The column named "x.property.y" holds "property."
only in a non-leading position; the claim says its localName stays the full
name "x.property.y", but WritePropertyElement strips everything up to and
including the first occurrence anywhere, producing ref "VTK:y". -/
theorem C5_counterexample :
    (writeProperty c5col (some 0) ⟨[], []⟩).map (fun r => List.lookup "ref" r.1.attrs) =
      some (some "VTK:y") ∧ ("VTK:y" : String) ≠ "VTK:x.property.y" := by
  constructor
  · rfl
  · decide

/-- Success characterization of writeProperty: the produced element and
state in closed form. -/
theorem writeProperty_some_iff {c : Column} {row : Option Nat} {st : WState}
    {e : XMLElem} {st' : WState} :
    writeProperty c row st = some (e, st') ↔
    ∃ a0 ap0 u0 var, scanPropAttrs c.info ("", "", "") = some (a0, ap0, u0) ∧
      c.values[row.getD 0]? = some var ∧
      e = XMLElem.elem "property"
        ([("datatype", inferDatatype var.typeName),
          ("ref", (if a0 = "" then "VTK" else a0) ++ ":" ++ stripPropName c.name),
          ("applies_to", if ap0 = "" then "clade" else ap0)] ++
          (if u0 = "" then [] else [("unit", u0)])) var.str [] ∧
      st' = ⟨(match row with | none => ignoreArray st.bl c.name | some _ => st.bl),
        st.emitted ++ [(c.name, row)]⟩ := by
  constructor
  · intro h
    rcases row with _ | r <;>
    · cases hs : scanPropAttrs c.info ("", "", "") with
      | none =>
        simp only [writeProperty, hs] at h
        cases h
      | some acc =>
        obtain ⟨a0, ap0, u0⟩ := acc
        simp only [writeProperty, hs] at h
        split at h
        · cases h
        · rename_i var heq
          simp only [Option.some.injEq, Prod.mk.injEq] at h
          obtain ⟨he, hst⟩ := h
          exact ⟨a0, ap0, u0, var, rfl, heq, he.symm, hst.symm⟩
  · rintro ⟨a0, ap0, u0, var, hs, hv, he, hst⟩
    rcases row with _ | r <;>
    · simp only [Option.getD_none, Option.getD_some] at hv
      simp only [writeProperty, hs, hv, he, hst]

/-- C5 amended.  The ref attribute of every property element is
authority:localName with authority the information value for key authority
(the literal "VTK" when that value is absent or empty), and localName the
substring of the column name after the FIRST occurrence of "property."
anywhere in the name (the whole name when "property." does not occur) — not
merely a leading-position strip. -/
theorem C5_amended : ∀ c row st e st', writeProperty c row st = some (e, st') →
    ∃ a0 ap0 u0, scanPropAttrs c.info ("", "", "") = some (a0, ap0, u0) ∧
      ∃ localName,
        List.lookup "ref" e.attrs =
          some ((if a0 = "" then "VTK" else a0) ++ ":" ++ localName) ∧
        ((∀ j, occursAtB "property.".data c.name.data j = false) ∧ localName = c.name ∨
         ∃ i, occursAtB "property.".data c.name.data i = true ∧
           (∀ j < i, occursAtB "property.".data c.name.data j = false) ∧
           localName = String.mk (c.name.data.drop (i + 9))) := by
  intro c row st e st' h
  rw [writeProperty_some_iff] at h
  obtain ⟨a0, ap0, u0, var, hs, hv, he, _⟩ := h
  refine ⟨a0, ap0, u0, hs, stripPropName c.name, ?_, ?_⟩
  · subst he
    by_cases hu : u0 = "" <;> simp [hu, XMLElem.attrs, List.lookup]
  · unfold stripPropName
    cases hf : findSub "property.".data c.name.data with
    | none =>
      exact Or.inl ⟨findSub_none (by decide) hf, rfl⟩
    | some i =>
      exact Or.inr ⟨i, (findSub_some hf).1, (findSub_some hf).2, rfl⟩

/-- C5 amended witness at the column property.habitat with value "forest". -/
theorem C5_amended_witness :
    ∃ a0 ap0 u0, scanPropAttrs c5wcol.info ("", "", "") = some (a0, ap0, u0) ∧
      ∃ localName,
        List.lookup "ref" (XMLElem.elem "property"
          [("datatype", "xsd:string"), ("ref", "VTK:habitat"), ("applies_to", "clade")]
          "forest" []).attrs =
          some ((if a0 = "" then "VTK" else a0) ++ ":" ++ localName) ∧
        ((∀ j, occursAtB "property.".data c5wcol.name.data j = false) ∧
            localName = c5wcol.name ∨
         ∃ i, occursAtB "property.".data c5wcol.name.data i = true ∧
           (∀ j < i, occursAtB "property.".data c5wcol.name.data j = false) ∧
           localName = String.mk (c5wcol.name.data.drop (i + 9))) :=
  C5_amended c5wcol (some 0) ⟨[], []⟩
    (XMLElem.elem "property"
      [("datatype", "xsd:string"), ("ref", "VTK:habitat"), ("applies_to", "clade")]
      "forest" [])
    ⟨[], [("property.habitat", some 0)]⟩ rfl

/-- C10.  The information scan inside WritePropertyElement dereferences the
downcast result without a null check: it crashes (none) exactly when some
information entry's key is not a string key, so it is safe only under the
precondition that every key is a string key; the separate GetArrayAttribute
helper checks the downcast for null and is total, returning "" when no
string key with the requested name exists (even when a non-string key of
that name does). -/
theorem C10_info_scan :
    (∀ (info : List InfoEntry) (acc : String × String × String),
        scanPropAttrs info acc = none ↔ ∃ e ∈ info, e.isString = false) ∧
    (∀ (info : List InfoEntry) (attr : String),
        (∀ e ∈ info, e.name = attr → e.isString = false) →
        getArrayAttribute info attr = "") := by
  constructor
  · intro info
    induction info with
    | nil => intro acc; simp [scanPropAttrs]
    | cons e rest ih =>
      intro acc
      obtain ⟨a, ap, u⟩ := acc
      by_cases hs : e.isString
      · simp only [scanPropAttrs, hs, if_true]
        split_ifs <;>
          rw [ih] <;>
          simp [List.exists_mem_cons_iff, hs]
      · simp only [Bool.not_eq_true] at hs
        simp [scanPropAttrs, hs, List.exists_mem_cons_iff]
  · intro info attr hall
    unfold getArrayAttribute
    have hnone : info.find? (fun e => e.name = attr && e.isString) = none := by
      rw [List.find?_eq_none]
      intro e he
      simp only [Bool.and_eq_true, decide_eq_true_eq, not_and]
      intro hn
      simp [hall e he hn]
    rw [hnone]

/-- C10 witness: a single non-string key named authority crashes the scan,
and a non-string key named type makes the guarded helper return "". -/
theorem C10_info_scan_witness :
    (scanPropAttrs [⟨"authority", false, "x"⟩] ("", "", "") = none ↔
      ∃ e ∈ [(⟨"authority", false, "x"⟩ : InfoEntry)], e.isString = false) ∧
    getArrayAttribute [⟨"type", false, "v"⟩] "type" = "" :=
  ⟨C10_info_scan.1 _ _, C10_info_scan.2 _ _ (by decide)⟩

/-- C7 counterexample.  A two-component unsigned-char color column is not a
3-component byte column, yet WriteColorElement does NOT treat it as absent:
the downcast succeeds, components 0, 1, 2 of vertex 0 are read and a color
element is emitted (the claim requires no color element here). -/
theorem C7_counterexample :
    writeColor [colorTwoComp] 0 ⟨[], []⟩ =
      some ([XMLElem.elem "color" [] ""
        [XMLElem.elem "red" [] "1" [], XMLElem.elem "green" [] "2" [],
         XMLElem.elem "blue" [] "3" []]], ⟨["color"], []⟩) := rfl

/-- C7 amended.  A color column is treated as absent exactly when the lookup
fails or the unsigned-char downcast fails; when the downcast succeeds the
color element is emitted regardless of component count, reading components
0, 1, 2 — which runs past the column's flat buffer (modelled as none, the
out-of-bounds read) for a one-component byte column at its last vertex. -/
theorem C7_amended :
    (∀ vdata v st, findArray vdata "color" = none →
      writeColor vdata v st = some ([], st)) ∧
    (∀ vdata v st c, findArray vdata "color" = some c → c.isUChar = false →
      writeColor vdata v st = some ([], st)) ∧
    writeColor [colorOneComp] 0 ⟨[], []⟩ = none := by
  refine ⟨?_, ?_, rfl⟩
  · intro vdata v st h
    unfold writeColor
    rw [h]
  · intro vdata v st c h hu
    unfold writeColor
    rw [h]
    simp [hu]

/-- C7 amended witness: absent color column and non-byte color column are
both treated as absent. -/
theorem C7_amended_witness :
    writeColor [] 0 ⟨[], []⟩ = some ([], ⟨[], []⟩) ∧
    writeColor [colorNotByte] 0 ⟨[], []⟩ = some ([], ⟨[], []⟩) :=
  ⟨C7_amended.1 [] 0 ⟨[], []⟩ rfl,
   C7_amended.2.1 [colorNotByte] 0 ⟨[], []⟩ colorNotByte rfl rfl⟩

/-- C3 counterexample.  A write whose closing flush fails (endFail = true)
still returns 1 (success) from WriteData — EndFile's return value is
discarded — although the system error code has been recorded; the claim
requires the whole operation to report failure. -/
theorem C3_counterexample :
    (writeData newWriter tdEmpty (.node 0 []) false true).map
      (fun r => (r.1, r.2.2.1.errorCode)) = some (1, true) := rfl

/-- C3 amended.  On a closing-flush failure the system error code is
recorded on the writer (SetErrorCode(GetLastSystemError()) in EndFile), but
WriteData discards EndFile's return value and still returns 1; only the
opening flush (StartFile) failure makes WriteData return 0. -/
theorem C3_amended :
    (∀ w d root ef r dc w' tr, writeData w d root false ef = some (r, dc, w', tr) →
      r = 1 ∧ w'.errorCode = (w.errorCode || ef)) ∧
    (∀ w d root ef, writeData w d root true ef =
      some (0, none, { w with errorCode := true }, [])) := by
  constructor
  · intro w d root ef r dc w' tr h
    simp only [writeData, Bool.false_eq_true, if_false] at h
    split at h
    · cases h
    · split at h
      · cases h
      · split at h
        · cases h
        · split at h
          · cases h
          · split at h
            · cases h
            · simp only [Option.some.injEq, Prod.mk.injEq] at h
              obtain ⟨h1, _, h3, _⟩ := h
              subst h3
              exact ⟨h1.symm, rfl⟩
  · intro w d root ef
    simp [writeData]

/-- C3 amended witness: the empty tree with a failing closing flush. -/
theorem C3_amended_witness :
    1 = 1 ∧ (⟨"weight", "node name", [], true⟩ : PWriter).errorCode =
      (newWriter.errorCode || true) :=
  C3_amended.1 newWriter tdEmpty (.node 0 []) true 1
    (some (XMLElem.elem "phylogeny" [("rooted", "true")] ""
      [XMLElem.elem "clade" [] "" []]))
    ⟨"weight", "node name", [], true⟩ [] rfl

theorem contains_mem {a : String} {l : List String} : l.contains a = true ↔ a ∈ l := by
  simp [List.contains_iff_exists_mem_beq]

theorem stExt_refl (st : WState) : stExt st st := ⟨⟨[], by simp⟩, ⟨[], by simp⟩⟩

theorem stExt_trans {a b c : WState} (h1 : stExt a b) (h2 : stExt b c) : stExt a c := by
  obtain ⟨⟨x1, hx1⟩, ⟨y1, hy1⟩⟩ := h1
  obtain ⟨⟨x2, hx2⟩, ⟨y2, hy2⟩⟩ := h2
  exact ⟨⟨x1 ++ x2, by simp [hx2, hx1]⟩, ⟨y1 ++ y2, by simp [hy2, hy1]⟩⟩

theorem stExt_mem {st st' : WState} (h : stExt st st') {m : String}
    (hm : m ∈ st.bl) : m ∈ st'.bl := by
  obtain ⟨⟨x, hx⟩, _⟩ := h
  rw [hx]
  exact List.mem_append_left _ hm

/-- Success characterization of writeBranchLength. -/
theorem writeBranchLength_some_iff {ewa : Option Column} {eid : Option Nat}
    {st : WState} {a : List (String × String)} {st' : WState} :
    writeBranchLength ewa eid st = some (a, st') ↔
    (ewa = none ∧ a = [] ∧ st' = st) ∨
    (∃ c, ewa = some c ∧
      ((eid = none ∧ a = []) ∨
        ∃ e var, eid = some e ∧ c.values[e]? = some var ∧
          a = [("branch_length", var.dbl)]) ∧
      st' = ⟨if st.bl.contains c.name then st.bl else st.bl ++ [c.name], st.emitted⟩) := by
  constructor
  · intro h
    cases ewa with
    | none =>
      simp only [writeBranchLength, Option.some.injEq, Prod.mk.injEq] at h
      exact Or.inl ⟨rfl, h.1.symm, h.2.symm⟩
    | some c =>
      refine Or.inr ⟨c, rfl, ?_⟩
      cases eid with
      | none =>
        simp only [writeBranchLength, Option.some.injEq, Prod.mk.injEq] at h
        exact ⟨Or.inl ⟨rfl, h.1.symm⟩, by
          rw [← h.2]
          simp [ignoreArray]⟩
      | some e =>
        cases hv : c.values[e]? with
        | none =>
          simp only [writeBranchLength, hv] at h
          cases h
        | some var =>
          simp only [writeBranchLength, hv, Option.some.injEq, Prod.mk.injEq] at h
          exact ⟨Or.inr ⟨e, var, rfl, hv, h.1.symm⟩, by
            rw [← h.2]
            simp [ignoreArray]⟩
  · rintro (⟨rfl, rfl, rfl⟩ | ⟨c, rfl, hmid, rfl⟩)
    · rfl
    · rcases hmid with ⟨rfl, rfl⟩ | ⟨e, var, rfl, hv, rfl⟩
      · simp [writeBranchLength, ignoreArray]
      · simp [writeBranchLength, hv, ignoreArray]

/-- Success characterization of writeNameElem. -/
theorem writeNameElem_some_iff {nna : Option Column} {v : Nat} {st : WState}
    {els : List XMLElem} {st' : WState} :
    writeNameElem nna v st = some (els, st') ↔
    (nna = none ∧ els = [] ∧ st' = st) ∨
    (∃ c var, nna = some c ∧ c.values[v]? = some var ∧
      els = (if var.str = "" then [] else [XMLElem.elem "name" [] var.str []]) ∧
      st' = ⟨if st.bl.contains c.name then st.bl else st.bl ++ [c.name], st.emitted⟩) := by
  constructor
  · intro h
    cases nna with
    | none =>
      simp only [writeNameElem, Option.some.injEq, Prod.mk.injEq] at h
      exact Or.inl ⟨rfl, h.1.symm, h.2.symm⟩
    | some c =>
      cases hv : c.values[v]? with
      | none =>
        simp only [writeNameElem, hv] at h
        cases h
      | some var =>
        simp only [writeNameElem, hv, Option.some.injEq, Prod.mk.injEq] at h
        exact Or.inr ⟨c, var, rfl, hv, h.1.symm, by
          rw [← h.2]
          simp [ignoreArray]⟩
  · rintro (⟨rfl, rfl, rfl⟩ | ⟨c, var, rfl, hv, rfl, rfl⟩)
    · rfl
    · simp [writeNameElem, hv, ignoreArray]

/-- Success characterization of writeConfidence. -/
theorem writeConfidence_some_iff {vdata : List Column} {v : Nat} {st : WState}
    {els : List XMLElem} {st' : WState} :
    writeConfidence vdata v st = some (els, st') ↔
    (findArray vdata "confidence" = none ∧ els = [] ∧ st' = st) ∨
    (∃ c var, findArray vdata "confidence" = some c ∧ c.values[v]? = some var ∧
      els = (if var.str = "" then [] else
        [XMLElem.elem "confidence"
          (if getArrayAttribute c.info "type" = "" then []
           else [("type", getArrayAttribute c.info "type")]) var.str []]) ∧
      st' = ⟨if st.bl.contains "confidence" then st.bl
        else st.bl ++ ["confidence"], st.emitted⟩) := by
  constructor
  · intro h
    cases hf : findArray vdata "confidence" with
    | none =>
      simp only [writeConfidence, hf, Option.some.injEq, Prod.mk.injEq] at h
      exact Or.inl ⟨rfl, h.1.symm, h.2.symm⟩
    | some c =>
      cases hv : c.values[v]? with
      | none =>
        simp only [writeConfidence, hf, hv] at h
        cases h
      | some var =>
        simp only [writeConfidence, hf, hv, Option.some.injEq, Prod.mk.injEq] at h
        exact Or.inr ⟨c, var, rfl, hv, h.1.symm, by
          rw [← h.2]
          simp [ignoreArray]⟩
  · rintro (⟨hf, rfl, rfl⟩ | ⟨c, var, hf, hv, rfl, rfl⟩)
    · simp [writeConfidence, hf]
    · simp [writeConfidence, hf, hv, ignoreArray]

/-- Success characterization of writeColor. -/
theorem writeColor_some_iff {vdata : List Column} {v : Nat} {st : WState}
    {els : List XMLElem} {st' : WState} :
    writeColor vdata v st = some (els, st') ↔
    ((findArray vdata "color" = none ∨
       ∃ c, findArray vdata "color" = some c ∧ c.isUChar = false) ∧
      els = [] ∧ st' = st) ∨
    (∃ c r g b, findArray vdata "color" = some c ∧ c.isUChar = true ∧
      c.comps[v * c.numComps]? = some r ∧
      c.comps[v * c.numComps + 1]? = some g ∧
      c.comps[v * c.numComps + 2]? = some b ∧
      els = [XMLElem.elem "color" [] ""
        [XMLElem.elem "red" [] r [], XMLElem.elem "green" [] g [],
         XMLElem.elem "blue" [] b []]] ∧
      st' = ⟨if st.bl.contains "color" then st.bl else st.bl ++ ["color"],
        st.emitted⟩) := by
  constructor
  · intro h
    cases hf : findArray vdata "color" with
    | none =>
      simp only [writeColor, hf, Option.some.injEq, Prod.mk.injEq] at h
      exact Or.inl ⟨Or.inl rfl, h.1.symm, h.2.symm⟩
    | some c =>
      by_cases hu : c.isUChar
      · simp only [writeColor, hf, hu, if_true] at h
        cases h1 : c.comps[v * c.numComps]? with
        | none => rw [h1] at h; cases h
        | some r =>
          cases h2 : c.comps[v * c.numComps + 1]? with
          | none => rw [h1, h2] at h; cases h
          | some g =>
            cases h3 : c.comps[v * c.numComps + 2]? with
            | none => rw [h1, h2, h3] at h; cases h
            | some b =>
              rw [h1, h2, h3] at h
              simp only [Option.some.injEq, Prod.mk.injEq] at h
              exact Or.inr ⟨c, r, g, b, rfl, hu, h1, h2, h3, h.1.symm, by
                rw [← h.2]
                simp [ignoreArray]⟩
      · have hu' : c.isUChar = false := by simpa using hu
        simp only [writeColor, hf, hu', Bool.false_eq_true, if_false,
          Option.some.injEq, Prod.mk.injEq] at h
        exact Or.inl ⟨Or.inr ⟨c, rfl, hu'⟩, h.1.symm, h.2.symm⟩
  · rintro (⟨hf | ⟨c, hf, hu⟩, rfl, rfl⟩ | ⟨c, r, g, b, hf, hu, h1, h2, h3, rfl, rfl⟩)
    · simp [writeColor, hf]
    · simp [writeColor, hf, hu]
    · simp [writeColor, hf, hu, h1, h2, h3, ignoreArray]

/-- State effect of writeBranchLength: emission trace unchanged, Blacklist
membership grows exactly by the resolved edge-weight column's name. -/
theorem writeBranchLength_state {ewa : Option Column} {eid : Option Nat}
    {st : WState} {a : List (String × String)} {st' : WState}
    (h : writeBranchLength ewa eid st = some (a, st')) :
    st'.emitted = st.emitted ∧
      ∀ m, m ∈ st'.bl ↔ m ∈ st.bl ∨ ∃ c, ewa = some c ∧ m = c.name := by
  rcases writeBranchLength_some_iff.mp h with ⟨rfl, _, rfl⟩ | ⟨c, rfl, _, rfl⟩
  · simp
  · refine ⟨rfl, fun m => ?_⟩
    by_cases hc : st.bl.contains c.name = true
    · simp only [if_pos hc]
      constructor
      · exact Or.inl
      · rintro (hm | ⟨c', hc', rfl⟩)
        · exact hm
        · cases hc'
          exact contains_mem.mp hc
    · simp only [if_neg hc, List.mem_append, List.mem_singleton]
      constructor
      · rintro (hm | rfl)
        · exact Or.inl hm
        · exact Or.inr ⟨c, rfl, rfl⟩
      · rintro (hm | ⟨c', hc', rfl⟩)
        · exact Or.inl hm
        · cases hc'
          exact Or.inr rfl

/-- State effect of writeNameElem. -/
theorem writeNameElem_state {nna : Option Column} {v : Nat} {st : WState}
    {els : List XMLElem} {st' : WState}
    (h : writeNameElem nna v st = some (els, st')) :
    st'.emitted = st.emitted ∧
      ∀ m, m ∈ st'.bl ↔ m ∈ st.bl ∨ ∃ c, nna = some c ∧ m = c.name := by
  rcases writeNameElem_some_iff.mp h with ⟨rfl, _, rfl⟩ | ⟨c, var, rfl, _, _, rfl⟩
  · simp
  · refine ⟨rfl, fun m => ?_⟩
    by_cases hc : st.bl.contains c.name = true
    · simp only [if_pos hc]
      constructor
      · exact Or.inl
      · rintro (hm | ⟨c', hc', rfl⟩)
        · exact hm
        · cases hc'
          exact contains_mem.mp hc
    · simp only [if_neg hc, List.mem_append, List.mem_singleton]
      constructor
      · rintro (hm | rfl)
        · exact Or.inl hm
        · exact Or.inr ⟨c, rfl, rfl⟩
      · rintro (hm | ⟨c', hc', rfl⟩)
        · exact Or.inl hm
        · cases hc'
          exact Or.inr rfl

/-- State effect of writeConfidence. -/
theorem writeConfidence_state {vdata : List Column} {v : Nat} {st : WState}
    {els : List XMLElem} {st' : WState}
    (h : writeConfidence vdata v st = some (els, st')) :
    st'.emitted = st.emitted ∧
      ∀ m, m ∈ st'.bl ↔ m ∈ st.bl ∨
        (m = "confidence" ∧ (findArray vdata "confidence").isSome = true) := by
  rcases writeConfidence_some_iff.mp h with ⟨hf, _, rfl⟩ | ⟨c, var, hf, _, _, rfl⟩
  · refine ⟨rfl, fun m => ?_⟩
    simp [hf]
  · refine ⟨rfl, fun m => ?_⟩
    by_cases hc : st.bl.contains "confidence" = true
    · simp only [if_pos hc]
      constructor
      · exact Or.inl
      · rintro (hm | ⟨rfl, _⟩)
        · exact hm
        · exact contains_mem.mp hc
    · simp only [if_neg hc, List.mem_append, List.mem_singleton, hf,
        Option.isSome_some, and_true]
      try tauto

/-- State effect of writeColor. -/
theorem writeColor_state {vdata : List Column} {v : Nat} {st : WState}
    {els : List XMLElem} {st' : WState}
    (h : writeColor vdata v st = some (els, st')) :
    st'.emitted = st.emitted ∧
      ∀ m, (m ∈ st'.bl ↔ m ∈ st.bl ∨
        (m = "color" ∧ ∃ c, findArray vdata "color" = some c ∧ c.isUChar = true)) := by
  rcases writeColor_some_iff.mp h with ⟨hf, _, rfl⟩ | ⟨c, r, g, b, hf, hu, _, _, _, _, rfl⟩
  · refine ⟨rfl, fun m => ?_⟩
    rcases hf with hf | ⟨c, hf, hu⟩
    · simp [hf]
    · simp [hf, hu]
  · refine ⟨rfl, fun m => ?_⟩
    by_cases hc : st.bl.contains "color" = true
    · simp only [if_pos hc]
      constructor
      · exact Or.inl
      · rintro (hm | ⟨rfl, _⟩)
        · exact hm
        · exact contains_mem.mp hc
    · simp only [if_neg hc, List.mem_append, List.mem_singleton, hf,
        Option.some.injEq]
      constructor
      · rintro (hm | rfl)
        · exact Or.inl hm
        · exact Or.inr ⟨rfl, c, rfl, hu⟩
      · rintro (hm | ⟨rfl, c', rfl, _⟩)
        · exact Or.inl hm
        · exact Or.inr rfl

/-- State effect of writeProperty at a clade-level row: the Blacklist is
untouched and exactly one trace entry is appended. -/
theorem writeProperty_someRow {c : Column} {r : Nat} {st : WState}
    {e : XMLElem} {st' : WState}
    (h : writeProperty c (some r) st = some (e, st')) :
    st'.bl = st.bl ∧ st'.emitted = st.emitted ++ [(c.name, some r)] := by
  rcases writeProperty_some_iff.mp h with ⟨a0, ap0, u0, var, _, _, _, rfl⟩
  exact ⟨rfl, rfl⟩

/-- The element produced by writeProperty at the tree-level sentinel does
not depend on the incoming state; the state update appends the column name
to the Blacklist and one tree-level entry to the trace. -/
theorem writeProperty_none_irrel {c : Column} {st1 : WState}
    {e : XMLElem} {st1' : WState}
    (h : writeProperty c none st1 = some (e, st1')) (st2 : WState) :
    writeProperty c none st2 =
      some (e, ⟨st2.bl ++ [c.name], st2.emitted ++ [(c.name, none)]⟩) := by
  rcases writeProperty_some_iff.mp h with ⟨a0, ap0, u0, var, hs, hv, rfl, _⟩
  exact writeProperty_some_iff.mpr ⟨a0, ap0, u0, var, hs, hv, rfl, by simp [ignoreArray]⟩

/-- The element produced by writeProperty at a clade row does not depend on
the incoming state; the Blacklist is untouched and one clade-row entry is
appended to the trace. -/
theorem writeProperty_someR_irrel {c : Column} {r : Nat} {st1 : WState}
    {e : XMLElem} {st1' : WState}
    (h : writeProperty c (some r) st1 = some (e, st1')) (st2 : WState) :
    writeProperty c (some r) st2 =
      some (e, ⟨st2.bl, st2.emitted ++ [(c.name, some r)]⟩) := by
  rcases writeProperty_some_iff.mp h with ⟨a0, ap0, u0, var, hs, hv, rfl, _⟩
  exact writeProperty_some_iff.mpr ⟨a0, ap0, u0, var, hs, hv, rfl, rfl⟩

/-- The residual scan leaves the Blacklist untouched and appends only
clade-row trace entries whose names were not in the Blacklist. -/
theorem propScan_char {nnaIdx : Option Nat} {v : Nat} :
    ∀ {cols : List Column} {i : Nat} {st : WState} {els : List XMLElem} {st' : WState},
      propScan nnaIdx v i cols st = some (els, st') →
      st'.bl = st.bl ∧ ∃ dem, st'.emitted = st.emitted ++ dem ∧
        ∀ q ∈ dem, q.2 = some v ∧ q.1 ∉ st.bl := by
  intro cols
  induction cols with
  | nil =>
    intro i st els st' h
    simp only [propScan, Option.some.injEq, Prod.mk.injEq] at h
    refine ⟨by rw [← h.2], [], by simp [← h.2], by simp⟩
  | cons c rest ih =>
    intro i st els st' h
    simp only [propScan] at h
    split at h
    · exact ih h
    · split at h
      · exact ih h
      · rename_i hnin
        split at h
        · cases h
        · rename_i pr hw
          obtain ⟨e0, stm⟩ := pr
          split at h
          · cases h
          · rename_i pr2 hrest
            obtain ⟨es0, stf⟩ := pr2
            simp only [Option.some.injEq, Prod.mk.injEq] at h
            obtain ⟨_, rfl⟩ := h
            obtain ⟨hbl1, hem1⟩ := writeProperty_someRow hw
            replace hbl1 : e0 = st.bl := hbl1
            replace hem1 : stm = st.emitted ++ [(c.name, some v)] := hem1
            obtain ⟨hbl2, dem, hem2, hdem⟩ := ih hrest
            replace hbl2 : es0 = e0 := hbl2
            replace hem2 : stf = stm ++ dem := hem2
            refine ⟨?_, (c.name, some v) :: dem, ?_, ?_⟩
            · show es0 = st.bl
              rw [hbl2, hbl1]
            · show stf = st.emitted ++ _
              rw [hem2, hem1]
              simp
            · intro q hq
              rcases List.mem_cons.mp hq with rfl | hq2
              · exact ⟨rfl, fun hmem => hnin (contains_mem.mpr hmem)⟩
              · obtain ⟨hq1, hq2'⟩ := hdem q hq2
                replace hq2' : q.1 ∉ e0 := hq2'
                rw [hbl1] at hq2'
                exact ⟨hq1, hq2'⟩

/-- Success characterization of writeTreeLevelElement. -/
theorem writeTreeLevelElement_some_iff {vdata : List Column} {en an : String}
    {st : WState} {els : List XMLElem} {st' : WState} :
    writeTreeLevelElement vdata en an st = some (els, st') ↔
    (findArray vdata ("phylogeny." ++ en) = none ∧ els = [] ∧ st' = st) ∨
    (∃ c var, findArray vdata ("phylogeny." ++ en) = some c ∧ c.values[0]? = some var ∧
      els = [XMLElem.elem en
        (if an ≠ "" then
          (if getArrayAttribute c.info an ≠ "" then [(an, getArrayAttribute c.info an)]
           else [])
         else []) var.str []] ∧
      st' = ⟨st.bl ++ ["phylogeny." ++ en], st.emitted⟩) := by
  constructor
  · intro h
    cases hf : findArray vdata ("phylogeny." ++ en) with
    | none =>
      simp only [writeTreeLevelElement, hf, Option.some.injEq, Prod.mk.injEq] at h
      exact Or.inl ⟨rfl, h.1.symm, h.2.symm⟩
    | some c =>
      cases hv : c.values[0]? with
      | none =>
        simp only [writeTreeLevelElement, hf, hv] at h
        cases h
      | some var =>
        simp only [writeTreeLevelElement, hf, hv, Option.some.injEq, Prod.mk.injEq] at h
        exact Or.inr ⟨c, var, rfl, hv, h.1.symm, by
          rw [← h.2]
          simp [ignoreArray]⟩
  · rintro (⟨hf, rfl, rfl⟩ | ⟨c, var, hf, hv, rfl, rfl⟩)
    · simp [writeTreeLevelElement, hf]
    · simp [writeTreeLevelElement, hf, hv, ignoreArray]

/-- writeTreeLevelElement: the elements do not depend on the incoming state;
the state update appends at most the looked-up array name to the Blacklist
and never touches the trace. -/
theorem writeTreeLevelElement_char {vdata : List Column} {en an : String}
    {st : WState} {els : List XMLElem} {st' : WState}
    (h : writeTreeLevelElement vdata en an st = some (els, st')) :
    ∃ dbl, st'.bl = st.bl ++ dbl ∧ st'.emitted = st.emitted ∧
      (∀ x ∈ dbl, x = "phylogeny." ++ en ∧ (findArray vdata ("phylogeny." ++ en)).isSome = true) ∧
      ((findArray vdata ("phylogeny." ++ en)).isSome = true → ("phylogeny." ++ en) ∈ dbl) ∧
      ∀ st2 : WState, writeTreeLevelElement vdata en an st2 =
        some (els, ⟨st2.bl ++ dbl, st2.emitted⟩) := by
  rcases writeTreeLevelElement_some_iff.mp h with ⟨hf, rfl, rfl⟩ | ⟨c, var, hf, hv, rfl, rfl⟩
  · refine ⟨[], by simp, rfl, by simp, by simp [hf], fun st2 => ?_⟩
    have : (⟨st2.bl ++ [], st2.emitted⟩ : WState) = st2 := by simp
    rw [this]
    exact writeTreeLevelElement_some_iff.mpr (Or.inl ⟨hf, rfl, rfl⟩)
  · refine ⟨["phylogeny." ++ en], rfl, rfl, ?_, by simp, fun st2 => ?_⟩
    · intro x hx
      rcases List.mem_singleton.mp hx with rfl
      exact ⟨rfl, by simp [hf]⟩
    · exact writeTreeLevelElement_some_iff.mpr (Or.inr ⟨c, var, hf, hv, rfl, rfl⟩)

/-- writeTreeProps: the elements do not depend on the incoming state; the
Blacklist grows exactly by the names of the phylogeny.property.-led columns
(in order) and the trace only by tree-level (row none) entries. -/
theorem writeTreeProps_char :
    ∀ {cols : List Column} {st : WState} {els : List XMLElem} {st' : WState},
      writeTreeProps cols st = some (els, st') →
      ∃ dbl dem, st'.bl = st.bl ++ dbl ∧ st'.emitted = st.emitted ++ dem ∧
        (∀ x ∈ dbl, ∃ c ∈ cols, leadsWith "phylogeny.property." c.name = true ∧ x = c.name) ∧
        (∀ c ∈ cols, leadsWith "phylogeny.property." c.name = true → c.name ∈ dbl) ∧
        (∀ q ∈ dem, q.2 = (none : Option Nat)) ∧
        ∀ st2 : WState, writeTreeProps cols st2 =
          some (els, ⟨st2.bl ++ dbl, st2.emitted ++ dem⟩) := by
  intro cols
  induction cols with
  | nil =>
    intro st els st' h
    simp only [writeTreeProps, Option.some.injEq, Prod.mk.injEq] at h
    refine ⟨[], [], by simp [← h.2], by simp [← h.2], by simp, by simp, by simp,
      fun st2 => ?_⟩
    simp [writeTreeProps, ← h.1]
  | cons c rest ih =>
    intro st els st' h
    simp only [writeTreeProps] at h
    by_cases hl : leadsWith "phylogeny.property." c.name = true
    · rw [if_pos hl] at h
      split at h
      · cases h
      · rename_i pr hw
        obtain ⟨bm, em⟩ := pr
        split at h
        · cases h
        · rename_i pr2 hrest
          obtain ⟨bf, ef⟩ := pr2
          simp only [Option.some.injEq, Prod.mk.injEq] at h
          obtain ⟨rfl, rfl⟩ := h
          have hmid := writeProperty_none_irrel hw st
          rw [hw] at hmid
          simp only [Option.some.injEq, Prod.mk.injEq] at hmid
          obtain ⟨-, hmid2⟩ := hmid
          have hbm : bm = st.bl ++ [c.name] := by
            have := congrArg WState.bl hmid2
            simpa using this
          have hem : em = st.emitted ++ [(c.name, none)] := by
            have := congrArg WState.emitted hmid2
            simpa using this
          obtain ⟨dbl, dem, hbf, hef, hsub, hsup, hnone, hshift⟩ := ih hrest
          replace hbf : bf = bm ++ dbl := hbf
          replace hef : ef = em ++ dem := hef
          refine ⟨c.name :: dbl, (c.name, none) :: dem, ?_, ?_, ?_, ?_, ?_, ?_⟩
          · show bf = st.bl ++ (c.name :: dbl)
            rw [hbf, hbm]
            simp
          · show ef = st.emitted ++ ((c.name, none) :: dem)
            rw [hef, hem]
            simp
          · intro x hx
            rcases List.mem_cons.mp hx with rfl | hx2
            · exact ⟨c, List.mem_cons_self c rest, hl, rfl⟩
            · obtain ⟨c2, hc2, hlc2, hxc2⟩ := hsub x hx2
              exact ⟨c2, List.mem_cons_of_mem c hc2, hlc2, hxc2⟩
          · intro c2 hc2 hlc2
            rcases List.mem_cons.mp hc2 with rfl | hc2'
            · exact List.mem_cons_self _ _
            · exact List.mem_cons_of_mem _ (hsup c2 hc2' hlc2)
          · intro q hq
            rcases List.mem_cons.mp hq with rfl | hq2
            · rfl
            · exact hnone q hq2
          · intro st2
            have hw2 := writeProperty_none_irrel hw st2
            have hr2 := hshift ⟨st2.bl ++ [c.name], st2.emitted ++ [(c.name, none)]⟩
            simp only [writeTreeProps, if_pos hl, hw2]
            rw [show (⟨(⟨st2.bl ++ [c.name], st2.emitted ++ [(c.name, none)]⟩ : WState).bl ++ dbl,
              (⟨st2.bl ++ [c.name], st2.emitted ++ [(c.name, none)]⟩ : WState).emitted ++ dem⟩ : WState)
              = ⟨st2.bl ++ (c.name :: dbl), st2.emitted ++ ((c.name, none) :: dem)⟩ from by simp] at hr2
            rw [hr2]
    · rw [if_neg hl] at h
      obtain ⟨dbl, dem, hbf, hef, hsub, hsup, hnone, hshift⟩ := ih h
      refine ⟨dbl, dem, hbf, hef, ?_, ?_, hnone, ?_⟩
      · intro x hx
        obtain ⟨c2, hc2, hlc2, hxc2⟩ := hsub x hx
        exact ⟨c2, List.mem_cons_of_mem c hc2, hlc2, hxc2⟩
      · intro c2 hc2 hlc2
        rcases List.mem_cons.mp hc2 with rfl | hc2'
        · exact absurd hlc2 hl
        · exact hsup c2 hc2' hlc2
      · intro st2
        simp only [writeTreeProps, if_neg hl]
        exact hshift st2

theorem ite_append_ext {bl : List String} {n : String} :
    ∃ e1, (if bl.contains n = true then bl else bl ++ [n]) = bl ++ e1 := by
  by_cases hc : bl.contains n = true
  · exact ⟨[], by rw [if_pos hc]; simp⟩
  · exact ⟨[n], by rw [if_neg hc]⟩

theorem writeBranchLength_stExt {ewa : Option Column} {eid : Option Nat}
    {st : WState} {a : List (String × String)} {st' : WState}
    (h : writeBranchLength ewa eid st = some (a, st')) : stExt st st' := by
  rcases writeBranchLength_some_iff.mp h with ⟨rfl, _, rfl⟩ | ⟨c, rfl, _, rfl⟩
  · exact stExt_refl _
  · exact ⟨ite_append_ext, ⟨[], by simp⟩⟩

theorem writeNameElem_stExt {nna : Option Column} {v : Nat} {st : WState}
    {els : List XMLElem} {st' : WState}
    (h : writeNameElem nna v st = some (els, st')) : stExt st st' := by
  rcases writeNameElem_some_iff.mp h with ⟨rfl, _, rfl⟩ | ⟨c, var, rfl, _, _, rfl⟩
  · exact stExt_refl _
  · exact ⟨ite_append_ext, ⟨[], by simp⟩⟩

theorem writeConfidence_stExt {vdata : List Column} {v : Nat} {st : WState}
    {els : List XMLElem} {st' : WState}
    (h : writeConfidence vdata v st = some (els, st')) : stExt st st' := by
  rcases writeConfidence_some_iff.mp h with ⟨_, _, rfl⟩ | ⟨c, var, _, _, _, rfl⟩
  · exact stExt_refl _
  · exact ⟨ite_append_ext, ⟨[], by simp⟩⟩

theorem writeColor_stExt {vdata : List Column} {v : Nat} {st : WState}
    {els : List XMLElem} {st' : WState}
    (h : writeColor vdata v st = some (els, st')) : stExt st st' := by
  rcases writeColor_some_iff.mp h with ⟨_, _, rfl⟩ | ⟨c, r, g, b, _, _, _, _, _, _, rfl⟩
  · exact stExt_refl _
  · exact ⟨ite_append_ext, ⟨[], by simp⟩⟩

theorem propScan_stExt {nnaIdx : Option Nat} {v : Nat} {cols : List Column}
    {i : Nat} {st : WState} {els : List XMLElem} {st' : WState}
    (h : propScan nnaIdx v i cols st = some (els, st')) : stExt st st' := by
  obtain ⟨hbl, dem, hem, _⟩ := propScan_char h
  exact ⟨⟨[], by simp [hbl]⟩, ⟨dem, hem⟩⟩

theorem writeCladeList_stExt_aux {d : TreeData} {ewa nna : Option Column}
    {nnaIdx : Option Nat} :
    ∀ {cs : List RTree},
      (∀ t ∈ cs, ∀ parent st e st',
        writeClade d ewa nna nnaIdx parent t st = some (e, st') → stExt st st') →
      ∀ {pv : Nat} {st : WState} {els : List XMLElem} {st' : WState},
        writeCladeList d ewa nna nnaIdx pv cs st = some (els, st') → stExt st st' := by
  intro cs
  induction cs with
  | nil =>
    intro _ pv st els st' h
    simp only [writeCladeList, Option.some.injEq, Prod.mk.injEq] at h
    rw [← h.2]
    exact stExt_refl st
  | cons t ts ih =>
    intro hcs pv st els st' h
    simp only [writeCladeList] at h
    split at h
    · cases h
    · rename_i e1 st1 hc
      split at h
      · cases h
      · rename_i es2 st2 hrest
        simp only [Option.some.injEq, Prod.mk.injEq] at h
        obtain ⟨-, rfl⟩ := h
        exact stExt_trans (hcs t (List.mem_cons_self t ts) _ _ _ _ hc)
          (ih (fun t' ht' => hcs t' (List.mem_cons_of_mem t ht')) hrest)

/-- A write of one clade (and its subtree) only ever appends to the
Blacklist and the trace. -/
theorem writeClade_stExt {d : TreeData} {ewa nna : Option Column}
    {nnaIdx : Option Nat} :
    ∀ t parent st e st',
      writeClade d ewa nna nnaIdx parent t st = some (e, st') → stExt st st' := by
  refine RTree.myInd ?_
  intro v cs ih parent st e st' h
  simp only [writeClade] at h
  split at h
  · cases h
  · rename_i a1 st1 h1
    split at h
    · cases h
    · rename_i n2 st2 h2
      split at h
      · cases h
      · rename_i c3 st3 h3
        split at h
        · cases h
        · rename_i l4 st4 h4
          split at h
          · cases h
          · rename_i p5 st5 h5
            split at h
            · cases h
            · rename_i k6 st6 h6
              simp only [Option.some.injEq, Prod.mk.injEq] at h
              obtain ⟨-, rfl⟩ := h
              exact stExt_trans (writeBranchLength_stExt h1)
                (stExt_trans (writeNameElem_stExt h2)
                  (stExt_trans (writeConfidence_stExt h3)
                    (stExt_trans (writeColor_stExt h4)
                      (stExt_trans (propScan_stExt h5)
                        (writeCladeList_stExt_aux ih h6)))))

/-- C6 counterexample.  The Blacklist is a writer-instance field: after a
first complete WriteData it holds "phylogeny.name" (not discarded), and a
second WriteData on the same writer starts from that carried content and
appends the same name again — it is not created empty at the start of every
invocation. -/
theorem C6_counterexample :
    (writeData newWriter c6td (.node 0 []) false false).map
      (fun r => r.2.2.1.blacklist) = some ["phylogeny.name"] ∧
    ((writeData newWriter c6td (.node 0 []) false false).bind
      (fun r => writeData r.2.2.1 c6td (.node 0 []) false false)).map
        (fun r => r.2.2.1.blacklist) =
      some ["phylogeny.name", "phylogeny.name"] := ⟨rfl, rfl⟩

/-- C6 amended.  The Emission Ledger (Blacklist) is created empty once, at
writer construction; during any WriteData it grows monotonically (names are
only appended, never removed), starting from whatever the instance field
already holds — it persists across WriteData invocations instead of being
discarded. -/
theorem C6_amended :
    newWriter.blacklist = [] ∧
    ∀ w d root ef r dc w' tr, writeData w d root false ef = some (r, dc, w', tr) →
      ∃ ext, w'.blacklist = w.blacklist ++ ext := by
  refine ⟨rfl, ?_⟩
  intro w d root ef r dc w' tr h
  simp only [writeData, Bool.false_eq_true, if_false] at h
  split at h
  · cases h
  · rename_i els1 st1 h1
    split at h
    · cases h
    · rename_i els2 st2 h2
      split at h
      · cases h
      · rename_i els3 st3 h3
        split at h
        · cases h
        · rename_i els4 st4 h4
          split at h
          · cases h
          · rename_i ce st5 h5
            simp only [Option.some.injEq, Prod.mk.injEq] at h
            obtain ⟨-, -, hw', -⟩ := h
            obtain ⟨d1, hb1, he1, -, -, -⟩ := writeTreeLevelElement_char h1
            obtain ⟨d2, hb2, he2, -, -, -⟩ := writeTreeLevelElement_char h2
            obtain ⟨d3, hb3, he3, -, -, -⟩ := writeTreeLevelElement_char h3
            obtain ⟨d4, dem4, hb4, he4, -, -, -, -⟩ := writeTreeProps_char h4
            obtain ⟨⟨d5, hb5⟩, -⟩ := writeClade_stExt root none st4 ce st5 h5
            refine ⟨d1 ++ d2 ++ d3 ++ d4 ++ d5, ?_⟩
            rw [← hw']
            show st5.bl = w.blacklist ++ (d1 ++ d2 ++ d3 ++ d4 ++ d5)
            rw [hb5, hb4, hb3, hb2, hb1]
            show (⟨w.blacklist, []⟩ : WState).bl ++ d1 ++ d2 ++ d3 ++ d4 ++ d5 = _
            simp

/-- C6 amended witness: the phylogeny.name tree run. -/
theorem C6_amended_witness :
    newWriter.blacklist = [] ∧
    ∃ ext, (⟨"weight", "node name", ["phylogeny.name"], false⟩ : PWriter).blacklist =
      newWriter.blacklist ++ ext :=
  ⟨C6_amended.1,
   C6_amended.2 newWriter c6td (.node 0 []) false 1
    (some (XMLElem.elem "phylogeny" [("rooted", "true")] ""
      [XMLElem.elem "name" [] "Primate" [], XMLElem.elem "clade" [] "" []]))
    ⟨"weight", "node name", ["phylogeny.name"], false⟩ [] rfl⟩

theorem writeCladeList_master_aux {d : TreeData} {ewa nna : Option Column}
    {nnaIdx : Option Nat} {n : String} :
    ∀ {cs : List RTree},
      (∀ t ∈ cs, ∀ parent st e st',
        writeClade d ewa nna nnaIdx parent t st = some (e, st') →
        (n ∈ st.bl ∨ gNames d.vdata ewa nna n) →
        n ∈ st'.bl ∧ ∀ p, ((n, p) ∈ st'.emitted ↔ (n, p) ∈ st.emitted)) →
      ∀ {pv : Nat} {st : WState} {els : List XMLElem} {st' : WState},
        writeCladeList d ewa nna nnaIdx pv cs st = some (els, st') →
        (n ∈ st.bl ∨ gNames d.vdata ewa nna n) →
        (n ∈ st.bl → n ∈ st'.bl) ∧
          ∀ p, ((n, p) ∈ st'.emitted ↔ (n, p) ∈ st.emitted) := by
  intro cs
  induction cs with
  | nil =>
    intro _ pv st els st' h _
    simp only [writeCladeList, Option.some.injEq, Prod.mk.injEq] at h
    rw [← h.2]
    exact ⟨id, fun _ => Iff.rfl⟩
  | cons t ts ih =>
    intro hcs pv st els st' h hn
    simp only [writeCladeList] at h
    split at h
    · cases h
    · rename_i e1 st1 hc
      split at h
      · cases h
      · rename_i es2 st2 hrest
        simp only [Option.some.injEq, Prod.mk.injEq] at h
        obtain ⟨-, rfl⟩ := h
        obtain ⟨hn1, htr1⟩ := hcs t (List.mem_cons_self t ts) _ _ _ _ hc hn
        obtain ⟨hn2, htr2⟩ :=
          ih (fun t' ht' => hcs t' (List.mem_cons_of_mem t ht')) hrest (Or.inl hn1)
        exact ⟨fun _ => hn2 hn1, fun p => (htr2 p).trans (htr1 p)⟩

/-- The master deduplication invariant of one clade write: a name that is
already in the Blacklist, or that the fixed steps are guaranteed to insert,
is in the Blacklist after the clade and acquires no clade-row trace entry
anywhere in the subtree. -/
theorem writeClade_master {d : TreeData} {ewa nna : Option Column}
    {nnaIdx : Option Nat} {n : String} :
    ∀ t, ∀ parent st e st',
      writeClade d ewa nna nnaIdx parent t st = some (e, st') →
      (n ∈ st.bl ∨ gNames d.vdata ewa nna n) →
      n ∈ st'.bl ∧ ∀ p, ((n, p) ∈ st'.emitted ↔ (n, p) ∈ st.emitted) := by
  refine RTree.myInd ?_
  intro v cs ih parent st e st' h hn
  simp only [writeClade] at h
  split at h
  · cases h
  · rename_i a1 st1 h1
    split at h
    · cases h
    · rename_i n2 st2 h2
      split at h
      · cases h
      · rename_i c3 st3 h3
        split at h
        · cases h
        · rename_i l4 st4 h4
          split at h
          · cases h
          · rename_i p5 st5 h5
            split at h
            · cases h
            · rename_i k6 st6 h6
              simp only [Option.some.injEq, Prod.mk.injEq] at h
              obtain ⟨-, rfl⟩ := h
              obtain ⟨hem1, hmem1⟩ := writeBranchLength_state h1
              obtain ⟨hem2, hmem2⟩ := writeNameElem_state h2
              obtain ⟨hem3, hmem3⟩ := writeConfidence_state h3
              obtain ⟨hem4, hmem4⟩ := writeColor_state h4
              obtain ⟨hbl5, dem, hem5, hdem⟩ := propScan_char h5
              have hn4 : n ∈ st4.bl := by
                rcases hn with hn | hg
                · exact (hmem4 n).mpr (Or.inl ((hmem3 n).mpr (Or.inl
                    ((hmem2 n).mpr (Or.inl ((hmem1 n).mpr (Or.inl hn)))))))
                · rcases hg with ⟨c, hc, rfl⟩ | ⟨c, hc, rfl⟩ | ⟨rfl, hcf⟩ | ⟨rfl, c, hcf, hu⟩
                  · exact (hmem4 _).mpr (Or.inl ((hmem3 _).mpr (Or.inl
                      ((hmem2 _).mpr (Or.inl ((hmem1 _).mpr (Or.inr ⟨c, hc, rfl⟩)))))))
                  · exact (hmem4 _).mpr (Or.inl ((hmem3 _).mpr (Or.inl
                      ((hmem2 _).mpr (Or.inr ⟨c, hc, rfl⟩)))))
                  · exact (hmem4 _).mpr (Or.inl ((hmem3 _).mpr (Or.inr ⟨rfl, hcf⟩)))
                  · exact (hmem4 _).mpr (Or.inr ⟨rfl, c, hcf, hu⟩)
              have hn5 : n ∈ st5.bl := by rw [hbl5]; exact hn4
              obtain ⟨hn6, htr6⟩ := writeCladeList_master_aux
                (fun t' ht' => ih t' ht') h6 (Or.inl hn5)
              refine ⟨hn6 hn5, fun p => ?_⟩
              rw [htr6 p]
              have h5p : ((n, p) ∈ st5.emitted ↔ (n, p) ∈ st4.emitted) := by
                rw [hem5]
                simp only [List.mem_append]
                constructor
                · rintro (hm | hm)
                  · exact hm
                  · exact absurd hn4 (hdem _ hm).2
                · exact Or.inl
              rw [h5p, hem4, hem3, hem2, hem1]

theorem findArrayIdx_bind_eq {cols : List Column} {nm : String} :
    ((findArrayIdx cols nm).bind (fun i => cols[i]?)) = findArray cols nm := by
  unfold findArrayIdx findArray
  induction cols with
  | nil => rfl
  | cons c rest ih =>
    by_cases hc : c.name = nm
    · simp [List.findIdx?_cons, hc]
    · simp only [List.findIdx?_cons, List.find?_cons, hc, decide_False, if_false,
        List.findIdx?_succ, Option.bind_eq_bind]
      rw [← ih]
      cases hidx : rest.findIdx? (fun c => decide (c.name = nm)) with
      | none => simp
      | some i => simp

/-- The write-level deduplication invariant: every name the tree-level
passes insert, and every name the fixed clade steps are guaranteed to
insert, ends up in the final Blacklist and never appears in the trace with a
clade row. -/
theorem writeData_dedup_core {w : PWriter} {d : TreeData} {root : RTree} {ef : Bool}
    {r : Nat} {dc : Option XMLElem} {w' : PWriter} {tr : List (String × Option Nat)}
    (h : writeData w d root false ef = some (r, dc, w', tr)) :
    ∀ n, (treeNames d.vdata n ∨
        gNames d.vdata (findArray d.edata w.edgeWeightArrayName)
          ((findArrayIdx d.vdata w.nodeNameArrayName).bind (fun i => d.vdata[i]?)) n) →
      n ∈ w'.blacklist ∧ ∀ v, (n, some v) ∉ tr := by
  simp only [writeData, Bool.false_eq_true, if_false] at h
  split at h
  · cases h
  · rename_i els1 st1 h1
    split at h
    · cases h
    · rename_i els2 st2 h2
      split at h
      · cases h
      · rename_i els3 st3 h3
        split at h
        · cases h
        · rename_i els4 st4 h4
          split at h
          · cases h
          · rename_i ce st5 h5
            simp only [Option.some.injEq, Prod.mk.injEq] at h
            obtain ⟨-, -, hw', htr⟩ := h
            intro n hn
            obtain ⟨d1, hb1, he1, hsub1, hsup1, hsh1⟩ := writeTreeLevelElement_char h1
            obtain ⟨d2, hb2, he2, hsub2, hsup2, hsh2⟩ := writeTreeLevelElement_char h2
            obtain ⟨d3, hb3, he3, hsub3, hsup3, hsh3⟩ := writeTreeLevelElement_char h3
            obtain ⟨d4, dem4, hb4, he4, hsub4, hsup4, hnone4, hsh4⟩ := writeTreeProps_char h4
            have hTr4 : ∀ q ∈ st4.emitted, q.2 = (none : Option Nat) := by
              intro q hq
              rw [he4, he3, he2, he1] at hq
              simp only [List.mem_append] at hq
              rcases hq with hq | hq
              · simp at hq
              · exact hnone4 q hq
            have hst4bl : st4.bl = (⟨w.blacklist, []⟩ : WState).bl ++ d1 ++ d2 ++ d3 ++ d4 := by
              rw [hb4, hb3, hb2, hb1]
            have hOr : n ∈ st4.bl ∨
                gNames d.vdata (findArray d.edata w.edgeWeightArrayName)
                  ((findArrayIdx d.vdata w.nodeNameArrayName).bind (fun i => d.vdata[i]?)) n := by
              rcases hn with htn | hg
              · left
                rcases htn with ⟨en, hen, rfl, hsome⟩ | ⟨c, hc, hlc, rfl⟩
                · rcases hen with rfl | rfl | rfl
                  · have := hsup1 hsome
                    rw [hst4bl]
                    simp only [List.mem_append]
                    tauto
                  · have := hsup2 hsome
                    rw [hst4bl]
                    simp only [List.mem_append]
                    tauto
                  · have := hsup3 hsome
                    rw [hst4bl]
                    simp only [List.mem_append]
                    tauto
                · have := hsup4 c hc hlc
                  rw [hst4bl]
                  simp only [List.mem_append]
                  tauto
              · right
                exact hg
            obtain ⟨hn5, htr5⟩ := writeClade_master root none st4 ce st5 h5 hOr
            constructor
            · rw [← hw']
              exact hn5
            · intro v hv
              rw [← htr] at hv
              have := (htr5 (some v)).mp hv
              have hq := hTr4 (n, some v) this
              simp at hq

/-- C2 counterexample.  A malformed (non-byte) vertex column named color is
one of the five fixed-category names, yet after a complete write its name is
NOT in the ledger (final Blacklist is empty) and it WAS the source of a
clade-level generic property element (trace entry ("color", row 0)). -/
theorem C2_counterexample :
    (writeData newWriter c2td (.node 0 []) false false).map
      (fun r => (r.2.2.1.blacklist, r.2.2.2)) =
      some ([], [("color", some 0)]) := rfl

/-- C2 amended.  For every column the code actually recognizes as fixed
category — the edge-weight column resolved by its configured name, the
node-name column resolved by its configured name, a vertex column literally
named confidence, a vertex column literally named color that passes the byte
downcast, a present phylogeny.name/description/confidence column, and every
phylogeny.property.-led vertex column — after a complete write that name is
in the ledger and that name is never the source of a clade-level generic
property element (no trace entry with a clade row). -/
theorem C2_amended :
    ∀ w d root ef r dc w' tr, writeData w d root false ef = some (r, dc, w', tr) →
      (∀ c, findArray d.edata w.edgeWeightArrayName = some c →
        c.name ∈ w'.blacklist ∧ ∀ v, (c.name, some v) ∉ tr) ∧
      (∀ c, findArray d.vdata w.nodeNameArrayName = some c →
        c.name ∈ w'.blacklist ∧ ∀ v, (c.name, some v) ∉ tr) ∧
      (∀ c, findArray d.vdata "confidence" = some c →
        "confidence" ∈ w'.blacklist ∧ ∀ v, ("confidence", some v) ∉ tr) ∧
      (∀ c, findArray d.vdata "color" = some c → c.isUChar = true →
        "color" ∈ w'.blacklist ∧ ∀ v, ("color", some v) ∉ tr) ∧
      (∀ en, (en = "name" ∨ en = "description" ∨ en = "confidence") →
        (findArray d.vdata ("phylogeny." ++ en)).isSome = true →
        ("phylogeny." ++ en) ∈ w'.blacklist ∧ ∀ v, ("phylogeny." ++ en, some v) ∉ tr) ∧
      (∀ c ∈ d.vdata, leadsWith "phylogeny.property." c.name = true →
        c.name ∈ w'.blacklist ∧ ∀ v, (c.name, some v) ∉ tr) := by
  intro w d root ef r dc w' tr h
  refine ⟨?_, ?_, ?_, ?_, ?_, ?_⟩
  · intro c hc
    exact writeData_dedup_core h c.name (Or.inr (Or.inl ⟨c, hc, rfl⟩))
  · intro c hc
    refine writeData_dedup_core h c.name (Or.inr (Or.inr (Or.inl ⟨c, ?_, rfl⟩)))
    rw [findArrayIdx_bind_eq]
    exact hc
  · intro c hc
    exact writeData_dedup_core h "confidence"
      (Or.inr (Or.inr (Or.inr (Or.inl ⟨rfl, by simp [hc]⟩))))
  · intro c hc hu
    exact writeData_dedup_core h "color"
      (Or.inr (Or.inr (Or.inr (Or.inr ⟨rfl, c, hc, hu⟩))))
  · intro en hen hsome
    exact writeData_dedup_core h _ (Or.inl (Or.inl ⟨en, hen, rfl, hsome⟩))
  · intro c hc hl
    exact writeData_dedup_core h _ (Or.inl (Or.inr ⟨c, hc, hl, rfl⟩))

/-- C2 amended witness: the two-node tree exercising all fixed categories;
the edge-weight name and the byte color column are ledgered and never
clade-row emitted. -/
theorem C2_amended_witness :
    ("weight" ∈ ["phylogeny.name", "phylogeny.property.x", "weight", "node name",
        "confidence", "color"] ∧
      ∀ v, (("weight" : String), some v) ∉
        [("phylogeny.property.x", (none : Option Nat)), ("habitat", some 0),
         ("habitat", some 1)]) ∧
    ("color" ∈ ["phylogeny.name", "phylogeny.property.x", "weight", "node name",
        "confidence", "color"] ∧
      ∀ v, (("color" : String), some v) ∉
        [("phylogeny.property.x", (none : Option Nat)), ("habitat", some 0),
         ("habitat", some 1)]) := by
  have h := C2_amended newWriter wtTD wtRoot false 1 _
    ⟨"weight", "node name",
      ["phylogeny.name", "phylogeny.property.x", "weight", "node name",
        "confidence", "color"], false⟩
    [("phylogeny.property.x", none), ("habitat", some 0), ("habitat", some 1)] rfl
  exact ⟨h.1 wtWeightCol rfl, h.2.2.2.1 wtColorCol rfl rfl⟩

/-- C9.  When the configured edge-weight name resolves to an edge-scope
column, a vertex-scope column of the identical name is never emitted as a
clade-level generic property anywhere in the document: the Blacklist
deduplicates by name across scopes (the name is inserted during the
branch-length step of every clade, before the residual scan consults the
Blacklist). -/
theorem C9_cross_scope_dedup :
    ∀ w d root ef r dc w' tr, writeData w d root false ef = some (r, dc, w', tr) →
      ∀ c, findArray d.edata w.edgeWeightArrayName = some c →
      (∃ cv ∈ d.vdata, cv.name = c.name) →
      ∀ v, (c.name, some v) ∉ tr := by
  intro w d root ef r dc w' tr h c hc _
  exact (writeData_dedup_core h c.name (Or.inr (Or.inl ⟨c, hc, rfl⟩))).2

/-- C9 witness: the edge-weight column and a same-named vertex column; the
write emits no clade-row trace entry for "weight" (the trace is empty). -/
theorem C9_cross_scope_dedup_witness :
    ((wtWeightCol.name : String), some 0) ∉ ([] : List (String × Option Nat)) :=
  C9_cross_scope_dedup newWriter c9td (.node 0 [.node 1 []]) false 1 _
    ⟨"weight", "node name", ["weight"], false⟩ [] rfl wtWeightCol rfl
    ⟨c9vCol, List.mem_cons_self c9vCol [], rfl⟩ 0

theorem countCladesL_append (a b : List XMLElem) :
    countCladesL (a ++ b) = countCladesL a + countCladesL b := by
  induction a with
  | nil => simp [countCladesL]
  | cons k ks ih =>
    show countClades k + countCladesL (ks ++ b) = countClades k + countCladesL ks + countCladesL b
    rw [ih]
    omega

theorem cladeShapesL_append (a b : List XMLElem) :
    cladeShapesL (a ++ b) = cladeShapesL a ++ cladeShapesL b := by
  induction a with
  | nil => simp [cladeShapesL]
  | cons k ks ih =>
    show (if k.name = "clade" then [cladeShape k] else []) ++ cladeShapesL (ks ++ b) =
      ((if k.name = "clade" then [cladeShape k] else []) ++ cladeShapesL ks) ++ cladeShapesL b
    rw [ih, List.append_assoc]

/-- Elements produced by the name step contain no clade element. -/
theorem writeNameElem_content {nna : Option Column} {v : Nat} {st : WState}
    {els : List XMLElem} {st' : WState}
    (h : writeNameElem nna v st = some (els, st')) :
    countCladesL els = 0 ∧ cladeShapesL els = [] := by
  rcases writeNameElem_some_iff.mp h with ⟨-, rfl, -⟩ | ⟨c, var, -, -, rfl, -⟩
  · exact ⟨rfl, rfl⟩
  · by_cases hs : var.str = ""
    · rw [if_pos hs]
      exact ⟨rfl, rfl⟩
    · rw [if_neg hs]
      exact ⟨rfl, rfl⟩

/-- Elements produced by the confidence step contain no clade element. -/
theorem writeConfidence_content {vdata : List Column} {v : Nat} {st : WState}
    {els : List XMLElem} {st' : WState}
    (h : writeConfidence vdata v st = some (els, st')) :
    countCladesL els = 0 ∧ cladeShapesL els = [] := by
  rcases writeConfidence_some_iff.mp h with ⟨-, rfl, -⟩ | ⟨c, var, -, -, rfl, -⟩
  · exact ⟨rfl, rfl⟩
  · by_cases hs : var.str = ""
    · rw [if_pos hs]
      exact ⟨rfl, rfl⟩
    · rw [if_neg hs]
      by_cases ht : getArrayAttribute c.info "type" = ""
      · rw [if_pos ht]
        exact ⟨rfl, rfl⟩
      · rw [if_neg ht]
        exact ⟨rfl, rfl⟩

/-- Elements produced by the color step contain no clade element. -/
theorem writeColor_content {vdata : List Column} {v : Nat} {st : WState}
    {els : List XMLElem} {st' : WState}
    (h : writeColor vdata v st = some (els, st')) :
    countCladesL els = 0 ∧ cladeShapesL els = [] := by
  rcases writeColor_some_iff.mp h with ⟨-, rfl, -⟩ | ⟨c, r, g, b, -, -, -, -, -, rfl, -⟩
  · exact ⟨rfl, rfl⟩
  · exact ⟨rfl, rfl⟩

/-- A property element contains no clade element. -/
theorem writeProperty_content {c : Column} {row : Option Nat} {st : WState}
    {e : XMLElem} {st' : WState}
    (h : writeProperty c row st = some (e, st')) :
    countClades e = 0 ∧ e.name ≠ "clade" := by
  rcases writeProperty_some_iff.mp h with ⟨a0, ap0, u0, var, -, -, rfl, -⟩
  exact ⟨rfl, by simp [XMLElem.name]⟩

/-- The residual scan's elements contain no clade element. -/
theorem propScan_content {nnaIdx : Option Nat} {v : Nat} :
    ∀ {cols : List Column} {i : Nat} {st : WState} {els : List XMLElem} {st' : WState},
      propScan nnaIdx v i cols st = some (els, st') →
      countCladesL els = 0 ∧ cladeShapesL els = [] := by
  intro cols
  induction cols with
  | nil =>
    intro i st els st' h
    simp only [propScan, Option.some.injEq, Prod.mk.injEq] at h
    rw [← h.1]
    exact ⟨rfl, rfl⟩
  | cons c rest ih =>
    intro i st els st' h
    simp only [propScan] at h
    split at h
    · exact ih h
    · split at h
      · exact ih h
      · split at h
        · cases h
        · rename_i e0 stm hw
          split at h
          · cases h
          · rename_i es0 stf hrest
            simp only [Option.some.injEq, Prod.mk.injEq] at h
            obtain ⟨rfl, -⟩ := h
            obtain ⟨hc0, hcn⟩ := writeProperty_content hw
            obtain ⟨hr0, hrs⟩ := ih hrest
            constructor
            · simp only [countCladesL, hc0, hr0, Nat.add_zero]
            · simp only [cladeShapesL, hrs, if_neg hcn, List.nil_append]

/-- The tree-level property elements contain no clade element. -/
theorem writeTreeProps_content :
    ∀ {cols : List Column} {st : WState} {els : List XMLElem} {st' : WState},
      writeTreeProps cols st = some (els, st') →
      countCladesL els = 0 ∧ cladeShapesL els = [] := by
  intro cols
  induction cols with
  | nil =>
    intro st els st' h
    simp only [writeTreeProps, Option.some.injEq, Prod.mk.injEq] at h
    rw [← h.1]
    exact ⟨rfl, rfl⟩
  | cons c rest ih =>
    intro st els st' h
    simp only [writeTreeProps] at h
    split at h
    · split at h
      · cases h
      · rename_i e0 stm hw
        split at h
        · cases h
        · rename_i es0 stf hrest
          simp only [Option.some.injEq, Prod.mk.injEq] at h
          obtain ⟨rfl, -⟩ := h
          obtain ⟨hc0, hcn⟩ := writeProperty_content hw
          obtain ⟨hr0, hrs⟩ := ih hrest
          constructor
          · simp only [countCladesL, hc0, hr0, Nat.add_zero]
          · simp only [cladeShapesL, hrs, if_neg hcn, List.nil_append]
    · exact ih h

/-- Tree-level fixed elements (name/description/confidence) contain no clade
element. -/
theorem writeTreeLevelElement_content {vdata : List Column} {en an : String}
    {st : WState} {els : List XMLElem} {st' : WState} (hen : en ≠ "clade")
    (h : writeTreeLevelElement vdata en an st = some (els, st')) :
    countCladesL els = 0 ∧ cladeShapesL els = [] := by
  rcases writeTreeLevelElement_some_iff.mp h with ⟨-, rfl, -⟩ | ⟨c, var, -, -, rfl, -⟩
  · exact ⟨rfl, rfl⟩
  · constructor
    · simp [countCladesL, countClades, hen]
    · simp [cladeShapesL, XMLElem.name, hen]

theorem writeCladeList_shape_aux {d : TreeData} {ewa nna : Option Column}
    {nnaIdx : Option Nat} :
    ∀ {cs : List RTree},
      (∀ t ∈ cs, ∀ parent st e st',
        writeClade d ewa nna nnaIdx parent t st = some (e, st') →
        e.name = "clade" ∧ cladeShape e = shapeOf t ∧ countClades e = numNodes t) →
      ∀ {pv : Nat} {st : WState} {els : List XMLElem} {st' : WState},
        writeCladeList d ewa nna nnaIdx pv cs st = some (els, st') →
        cladeShapesL els = shapeOfL cs ∧ countCladesL els = numNodesL cs := by
  intro cs
  induction cs with
  | nil =>
    intro _ pv st els st' h
    simp only [writeCladeList, Option.some.injEq, Prod.mk.injEq] at h
    rw [← h.1]
    exact ⟨rfl, rfl⟩
  | cons t ts ih =>
    intro hcs pv st els st' h
    simp only [writeCladeList] at h
    split at h
    · cases h
    · rename_i e1 st1 hc
      split at h
      · cases h
      · rename_i es2 st2 hrest
        simp only [Option.some.injEq, Prod.mk.injEq] at h
        obtain ⟨rfl, -⟩ := h
        obtain ⟨hname, hshape, hcount⟩ := hcs t (List.mem_cons_self t ts) _ _ _ _ hc
        obtain ⟨hshapes, hcounts⟩ :=
          ih (fun t' ht' => hcs t' (List.mem_cons_of_mem t ht')) hrest
        constructor
        · show (if e1.name = "clade" then [cladeShape e1] else []) ++ cladeShapesL es2 =
            shapeOf t :: shapeOfL ts
          rw [if_pos hname, hshape, hshapes]
          rfl
        · show countClades e1 + countCladesL es2 = numNodes t + numNodesL ts
          rw [hcount, hcounts]

/-- Each clade element is named clade, its clade-nesting shape equals the
subtree's shape (children in tree order), and it holds exactly one clade
element per subtree node. -/
theorem writeClade_shape {d : TreeData} {ewa nna : Option Column}
    {nnaIdx : Option Nat} :
    ∀ t, ∀ parent st e st',
      writeClade d ewa nna nnaIdx parent t st = some (e, st') →
      e.name = "clade" ∧ cladeShape e = shapeOf t ∧ countClades e = numNodes t := by
  refine RTree.myInd ?_
  intro v cs ih parent st e st' h
  simp only [writeClade] at h
  split at h
  · cases h
  · rename_i a1 st1 h1
    split at h
    · cases h
    · rename_i n2 st2 h2
      split at h
      · cases h
      · rename_i c3 st3 h3
        split at h
        · cases h
        · rename_i l4 st4 h4
          split at h
          · cases h
          · rename_i p5 st5 h5
            split at h
            · cases h
            · rename_i k6 st6 h6
              simp only [Option.some.injEq, Prod.mk.injEq] at h
              obtain ⟨rfl, -⟩ := (⟨h.1.symm, h.2⟩ : _ ∧ _)
              obtain ⟨hn2c, hn2s⟩ := writeNameElem_content h2
              obtain ⟨hc3c, hc3s⟩ := writeConfidence_content h3
              obtain ⟨hl4c, hl4s⟩ := writeColor_content h4
              obtain ⟨hp5c, hp5s⟩ := propScan_content h5
              obtain ⟨hksh, hkc⟩ := writeCladeList_shape_aux (fun t' ht' => ih t' ht') h6
              refine ⟨rfl, ?_, ?_⟩
              · have hk : cladeShapesL (n2 ++ c3 ++ l4 ++ p5 ++ k6) = shapeOfL cs := by
                  rw [cladeShapesL_append, cladeShapesL_append, cladeShapesL_append,
                    cladeShapesL_append, hn2s, hc3s, hl4s, hp5s, hksh]
                  simp
                exact congrArg Shape.node hk
              · have hk : countCladesL (n2 ++ c3 ++ l4 ++ p5 ++ k6) = numNodesL cs := by
                  rw [countCladesL_append, countCladesL_append, countCladesL_append,
                    countCladesL_append, hn2c, hc3c, hl4c, hp5c, hkc]
                  simp
                show (if ("clade" : String) = "clade" then 1 else 0) +
                  countCladesL (n2 ++ c3 ++ l4 ++ p5 ++ k6) = 1 + numNodesL cs
                rw [if_pos rfl, hk]

/-- C1.  For every input tree, the printed document holds exactly one clade
element per tree node (countClades equals the node count), and the clade
nesting mirrors the parent/child relation exactly: the phylogeny element has
exactly one clade child whose recursive clade shape equals the tree's shape,
children in the order reported by the tree (depth-first pre-order
construction: each clade's own content is built before its children's
clades, which are appended in tree order). -/
theorem C1_structure :
    ∀ w d root sf ef r doc w' tr,
      writeData w d root sf ef = some (r, some doc, w', tr) →
      countClades doc = numNodes root ∧ cladeShapesL doc.kids = [shapeOf root] := by
  intro w d root sf ef r doc w' tr h
  cases sf with
  | true => simp [writeData] at h
  | false =>
    simp only [writeData, Bool.false_eq_true, if_false] at h
    split at h
    · cases h
    · rename_i els1 st1 h1
      split at h
      · cases h
      · rename_i els2 st2 h2
        split at h
        · cases h
        · rename_i els3 st3 h3
          split at h
          · cases h
          · rename_i els4 st4 h4
            split at h
            · cases h
            · rename_i ce st5 h5
              simp only [Option.some.injEq, Prod.mk.injEq] at h
              obtain ⟨-, hdoc, -, -⟩ := h
              obtain ⟨h1c, h1s⟩ := writeTreeLevelElement_content (by decide) h1
              obtain ⟨h2c, h2s⟩ := writeTreeLevelElement_content (by decide) h2
              obtain ⟨h3c, h3s⟩ := writeTreeLevelElement_content (by decide) h3
              obtain ⟨h4c, h4s⟩ := writeTreeProps_content h4
              obtain ⟨hcn, hcs, hcc⟩ := writeClade_shape root none st4 ce st5 h5
              rw [← hdoc]
              constructor
              · show (if ("phylogeny" : String) = "clade" then 1 else 0) +
                  countCladesL (els1 ++ els2 ++ els3 ++ els4 ++ [ce]) = numNodes root
                rw [if_neg (by decide), countCladesL_append, countCladesL_append,
                  countCladesL_append, countCladesL_append, h1c, h2c, h3c, h4c]
                show 0 + (0 + 0 + 0 + 0 + (countClades ce + countCladesL [])) = numNodes root
                rw [hcc]
                show 0 + (0 + 0 + 0 + 0 + (numNodes root + 0)) = numNodes root
                omega
              · show cladeShapesL (els1 ++ els2 ++ els3 ++ els4 ++ [ce]) = [shapeOf root]
                rw [cladeShapesL_append, cladeShapesL_append, cladeShapesL_append,
                  cladeShapesL_append, h1s, h2s, h3s, h4s]
                show [] ++ [] ++ [] ++ [] ++
                  ((if ce.name = "clade" then [cladeShape ce] else []) ++ cladeShapesL []) =
                  [shapeOf root]
                rw [if_pos hcn, hcs]
                rfl

/-- C1 witness: the three-node scenario tree. -/
theorem C1_structure_witness :
    countClades (XMLElem.elem "phylogeny" [("rooted", "true")] ""
      [XMLElem.elem "clade" [] ""
        [XMLElem.elem "name" [] "root" [],
         XMLElem.elem "clade" [("branch_length", "1.5")] ""
           [XMLElem.elem "name" [] "leafA" []],
         XMLElem.elem "clade" [("branch_length", "2.25")] ""
           [XMLElem.elem "name" [] "leafB" []]]]) = numNodes c1root ∧
    cladeShapesL (XMLElem.elem "phylogeny" [("rooted", "true")] ""
      [XMLElem.elem "clade" [] ""
        [XMLElem.elem "name" [] "root" [],
         XMLElem.elem "clade" [("branch_length", "1.5")] ""
           [XMLElem.elem "name" [] "leafA" []],
         XMLElem.elem "clade" [("branch_length", "2.25")] ""
           [XMLElem.elem "name" [] "leafB" []]]]).kids = [shapeOf c1root] :=
  C1_structure newWriter c1td c1root false false 1 _
    ⟨"weight", "node name", ["weight", "node name"], false⟩ [] rfl

theorem contains_congr {l1 l2 : List String} (h : ∀ m, m ∈ l1 ↔ m ∈ l2) (a : String) :
    l1.contains a = l2.contains a := by
  by_cases h1 : a ∈ l1
  · rw [contains_mem.mpr h1, contains_mem.mpr ((h a).mp h1)]
  · have h2 : a ∉ l2 := fun hx => h1 ((h a).mpr hx)
    cases hb1 : l1.contains a with
    | false =>
      cases hb2 : l2.contains a with
      | false => rfl
      | true => exact absurd (contains_mem.mp hb2) h2
    | true => exact absurd (contains_mem.mp hb1) h1

/-- The branch-length step succeeds from any state with the same attribute
output. -/
theorem writeBranchLength_transfer {ewa : Option Column} {eid : Option Nat}
    {st1 : WState} {a : List (String × String)} {st1' : WState}
    (h : writeBranchLength ewa eid st1 = some (a, st1')) (st2 : WState) :
    ∃ st2', writeBranchLength ewa eid st2 = some (a, st2') := by
  rcases writeBranchLength_some_iff.mp h with ⟨rfl, rfl, -⟩ | ⟨c, rfl, hmid, -⟩
  · exact ⟨st2, writeBranchLength_some_iff.mpr (Or.inl ⟨rfl, rfl, rfl⟩)⟩
  · exact ⟨_, writeBranchLength_some_iff.mpr (Or.inr ⟨c, rfl, hmid, rfl⟩)⟩

/-- The name step succeeds from any state with the same elements. -/
theorem writeNameElem_transfer {nna : Option Column} {v : Nat} {st1 : WState}
    {els : List XMLElem} {st1' : WState}
    (h : writeNameElem nna v st1 = some (els, st1')) (st2 : WState) :
    ∃ st2', writeNameElem nna v st2 = some (els, st2') := by
  rcases writeNameElem_some_iff.mp h with ⟨rfl, rfl, -⟩ | ⟨c, var, rfl, hv, rfl, -⟩
  · exact ⟨st2, writeNameElem_some_iff.mpr (Or.inl ⟨rfl, rfl, rfl⟩)⟩
  · exact ⟨_, writeNameElem_some_iff.mpr (Or.inr ⟨c, var, rfl, hv, rfl, rfl⟩)⟩

/-- The confidence step succeeds from any state with the same elements. -/
theorem writeConfidence_transfer {vdata : List Column} {v : Nat} {st1 : WState}
    {els : List XMLElem} {st1' : WState}
    (h : writeConfidence vdata v st1 = some (els, st1')) (st2 : WState) :
    ∃ st2', writeConfidence vdata v st2 = some (els, st2') := by
  rcases writeConfidence_some_iff.mp h with ⟨hf, rfl, -⟩ | ⟨c, var, hf, hv, rfl, -⟩
  · exact ⟨st2, writeConfidence_some_iff.mpr (Or.inl ⟨hf, rfl, rfl⟩)⟩
  · exact ⟨_, writeConfidence_some_iff.mpr (Or.inr ⟨c, var, hf, hv, rfl, rfl⟩)⟩

/-- The color step succeeds from any state with the same elements. -/
theorem writeColor_transfer {vdata : List Column} {v : Nat} {st1 : WState}
    {els : List XMLElem} {st1' : WState}
    (h : writeColor vdata v st1 = some (els, st1')) (st2 : WState) :
    ∃ st2', writeColor vdata v st2 = some (els, st2') := by
  rcases writeColor_some_iff.mp h with ⟨hf, rfl, -⟩ |
    ⟨c, r, g, b, hf, hu, h1, h2, h3, rfl, -⟩
  · exact ⟨st2, writeColor_some_iff.mpr (Or.inl ⟨hf, rfl, rfl⟩)⟩
  · exact ⟨_, writeColor_some_iff.mpr (Or.inr ⟨c, r, g, b, hf, hu, h1, h2, h3, rfl, rfl⟩)⟩

/-- After the four fixed steps of a clade, every name that was already in
the Blacklist and every guaranteed fixed name is in the Blacklist. -/
theorem steps_mem {vdata : List Column} {ewa nna : Option Column} {eid : Option Nat}
    {st : WState} {a : List (String × String)} {stA : WState}
    (h1 : writeBranchLength ewa eid st = some (a, stA))
    {v : Nat} {n2 : List XMLElem} {stB : WState}
    (h2 : writeNameElem nna v stA = some (n2, stB))
    {c3 : List XMLElem} {stC : WState}
    (h3 : writeConfidence vdata v stB = some (c3, stC))
    {l4 : List XMLElem} {stD : WState}
    (h4 : writeColor vdata v stC = some (l4, stD)) :
    ∀ m, (m ∈ st.bl ∨ gNames vdata ewa nna m) → m ∈ stD.bl := by
  obtain ⟨-, hmem1⟩ := writeBranchLength_state h1
  obtain ⟨-, hmem2⟩ := writeNameElem_state h2
  obtain ⟨-, hmem3⟩ := writeConfidence_state h3
  obtain ⟨-, hmem4⟩ := writeColor_state h4
  intro m hm
  rcases hm with hm | hg
  · exact (hmem4 m).mpr (Or.inl ((hmem3 m).mpr (Or.inl
      ((hmem2 m).mpr (Or.inl ((hmem1 m).mpr (Or.inl hm)))))))
  · rcases hg with ⟨c, hc, rfl⟩ | ⟨c, hc, rfl⟩ | ⟨rfl, hcf⟩ | ⟨rfl, c, hcf, hu⟩
    · exact (hmem4 _).mpr (Or.inl ((hmem3 _).mpr (Or.inl
        ((hmem2 _).mpr (Or.inl ((hmem1 _).mpr (Or.inr ⟨c, hc, rfl⟩)))))))
    · exact (hmem4 _).mpr (Or.inl ((hmem3 _).mpr (Or.inl
        ((hmem2 _).mpr (Or.inr ⟨c, hc, rfl⟩)))))
    · exact (hmem4 _).mpr (Or.inl ((hmem3 _).mpr (Or.inr ⟨rfl, hcf⟩)))
    · exact (hmem4 _).mpr (Or.inr ⟨rfl, c, hcf, hu⟩)

theorem writeCladeList_bl_subset_aux {d : TreeData} {ewa nna : Option Column}
    {nnaIdx : Option Nat} :
    ∀ {cs : List RTree},
      (∀ t ∈ cs, ∀ parent st e st',
        writeClade d ewa nna nnaIdx parent t st = some (e, st') →
        ∀ m, m ∈ st'.bl → m ∈ st.bl ∨ gNames d.vdata ewa nna m) →
      ∀ {pv : Nat} {st : WState} {els : List XMLElem} {st' : WState},
        writeCladeList d ewa nna nnaIdx pv cs st = some (els, st') →
        ∀ m, m ∈ st'.bl → m ∈ st.bl ∨ gNames d.vdata ewa nna m := by
  intro cs
  induction cs with
  | nil =>
    intro _ pv st els st' h m hm
    simp only [writeCladeList, Option.some.injEq, Prod.mk.injEq] at h
    rw [← h.2] at hm
    exact Or.inl hm
  | cons t ts ih =>
    intro hcs pv st els st' h m hm
    simp only [writeCladeList] at h
    split at h
    · cases h
    · rename_i e1 st1 hc
      split at h
      · cases h
      · rename_i es2 st2 hrest
        simp only [Option.some.injEq, Prod.mk.injEq] at h
        obtain ⟨-, rfl⟩ := h
        rcases ih (fun t' ht' => hcs t' (List.mem_cons_of_mem t ht')) hrest m hm with
          hm1 | hg
        · exact hcs t (List.mem_cons_self t ts) _ _ _ _ hc m hm1
        · exact Or.inr hg

/-- Every name inserted into the Blacklist during a clade write is one of
the guaranteed fixed names. -/
theorem writeClade_bl_subset {d : TreeData} {ewa nna : Option Column}
    {nnaIdx : Option Nat} :
    ∀ t, ∀ parent st e st',
      writeClade d ewa nna nnaIdx parent t st = some (e, st') →
      ∀ m, m ∈ st'.bl → m ∈ st.bl ∨ gNames d.vdata ewa nna m := by
  refine RTree.myInd ?_
  intro v cs ih parent st e st' h m hm
  simp only [writeClade] at h
  split at h
  · cases h
  · rename_i a1 st1 h1
    split at h
    · cases h
    · rename_i n2 st2 h2
      split at h
      · cases h
      · rename_i c3 st3 h3
        split at h
        · cases h
        · rename_i l4 st4 h4
          split at h
          · cases h
          · rename_i p5 st5 h5
            split at h
            · cases h
            · rename_i k6 st6 h6
              simp only [Option.some.injEq, Prod.mk.injEq] at h
              obtain ⟨-, rfl⟩ := h
              obtain ⟨-, hmem1⟩ := writeBranchLength_state h1
              obtain ⟨-, hmem2⟩ := writeNameElem_state h2
              obtain ⟨-, hmem3⟩ := writeConfidence_state h3
              obtain ⟨-, hmem4⟩ := writeColor_state h4
              obtain ⟨hbl5, -⟩ := propScan_char h5
              rcases writeCladeList_bl_subset_aux (fun t' ht' => ih t' ht') h6 m hm with
                hm5 | hg
              · rw [hbl5] at hm5
                rcases (hmem4 m).mp hm5 with hm4 | hg4
                · rcases (hmem3 m).mp hm4 with hm3 | hg3
                  · rcases (hmem2 m).mp hm3 with hm2 | hg2
                    · rcases (hmem1 m).mp hm2 with hm1 | hg1
                      · exact Or.inl hm1
                      · exact Or.inr (Or.inl hg1)
                    · exact Or.inr (Or.inr (Or.inl hg2))
                  · exact Or.inr (Or.inr (Or.inr (Or.inl hg3)))
                · exact Or.inr (Or.inr (Or.inr (Or.inr hg4)))
              · exact Or.inr hg

theorem or_rot {A B C : Prop} : (A ∨ B) ∨ C ↔ (A ∨ C) ∨ B := by
  constructor
  · rintro ((h | h) | h)
    · exact Or.inl (Or.inl h)
    · exact Or.inr h
    · exact Or.inl (Or.inr h)
  · rintro ((h | h) | h)
    · exact Or.inl (Or.inl h)
    · exact Or.inr h
    · exact Or.inl (Or.inr h)

/-- The residual scan behaves identically from two states with the same
Blacklist membership: same elements, and it never changes the Blacklist. -/
theorem propScan_congr {nnaIdx : Option Nat} {v : Nat} :
    ∀ {cols : List Column} {i : Nat} {st1 st2 : WState} {els : List XMLElem}
      {st1' : WState},
      propScan nnaIdx v i cols st1 = some (els, st1') →
      (∀ m, m ∈ st1.bl ↔ m ∈ st2.bl) →
      ∃ st2', propScan nnaIdx v i cols st2 = some (els, st2') ∧ st2'.bl = st2.bl := by
  intro cols
  induction cols with
  | nil =>
    intro i st1 st2 els st1' h _
    simp only [propScan, Option.some.injEq, Prod.mk.injEq] at h
    exact ⟨st2, by simp [propScan, ← h.1], rfl⟩
  | cons c rest ih =>
    intro i st1 st2 els st1' h hmem
    simp only [propScan] at h
    by_cases hidx : nnaIdx = some i
    · rw [if_pos hidx] at h
      obtain ⟨st2', h2, hbl⟩ := ih h hmem
      refine ⟨st2', ?_, hbl⟩
      simp only [propScan, if_pos hidx]
      exact h2
    · rw [if_neg hidx] at h
      have hcc : st1.bl.contains c.name = st2.bl.contains c.name :=
        contains_congr hmem c.name
      by_cases hin : st1.bl.contains c.name = true
      · rw [if_pos hin] at h
        obtain ⟨st2', h2, hbl⟩ := ih h hmem
        refine ⟨st2', ?_, hbl⟩
        simp only [propScan, if_neg hidx]
        rw [if_pos (by rw [← hcc]; exact hin)]
        exact h2
      · rw [if_neg hin] at h
        split at h
        · cases h
        · rename_i e0 stm hw
          split at h
          · cases h
          · rename_i es0 stf hrest
            simp only [Option.some.injEq, Prod.mk.injEq] at h
            obtain ⟨rfl, rfl⟩ := h
            have hw2 := writeProperty_someR_irrel hw st2
            have hmem' : ∀ m, m ∈ stm.bl ↔
                m ∈ (⟨st2.bl, st2.emitted ++ [(c.name, some v)]⟩ : WState).bl := by
              obtain ⟨hbl1, -⟩ := writeProperty_someRow hw
              intro m
              rw [hbl1]
              exact hmem m
            obtain ⟨st2', h2, hbl⟩ := ih hrest hmem'
            refine ⟨st2', ?_, by rw [hbl]⟩
            simp only [propScan, if_neg hidx]
            rw [if_neg (show ¬st2.bl.contains c.name = true from
              fun hx => hin (by rw [hcc]; exact hx))]
            rw [hw2]
            simp only
            rw [h2]

theorem writeCladeList_congr_aux {d : TreeData} {ewa nna : Option Column}
    {nnaIdx : Option Nat} {P : String → Prop} :
    ∀ {cs : List RTree},
      (∀ t ∈ cs, ∀ parent st1 st2 e st1',
        writeClade d ewa nna nnaIdx parent t st1 = some (e, st1') →
        (∀ m, m ∈ st2.bl ↔ m ∈ st1.bl ∨ P m) →
        (∀ m, P m → gNames d.vdata ewa nna m ∨ m ∈ st1.bl) →
        ∃ st2', writeClade d ewa nna nnaIdx parent t st2 = some (e, st2') ∧
          ∀ m, m ∈ st2'.bl ↔ m ∈ st1'.bl ∨ P m) →
      ∀ {pv : Nat} {st1 st2 : WState} {els : List XMLElem} {st1' : WState},
        writeCladeList d ewa nna nnaIdx pv cs st1 = some (els, st1') →
        (∀ m, m ∈ st2.bl ↔ m ∈ st1.bl ∨ P m) →
        (∀ m, P m → gNames d.vdata ewa nna m ∨ m ∈ st1.bl) →
        ∃ st2', writeCladeList d ewa nna nnaIdx pv cs st2 = some (els, st2') ∧
          ∀ m, m ∈ st2'.bl ↔ m ∈ st1'.bl ∨ P m := by
  intro cs
  induction cs with
  | nil =>
    intro _ pv st1 st2 els st1' h hrel _
    simp only [writeCladeList, Option.some.injEq, Prod.mk.injEq] at h
    refine ⟨st2, by simp [writeCladeList, ← h.1], ?_⟩
    rw [← h.2]
    exact hrel
  | cons t ts ih =>
    intro hcs pv st1 st2 els st1' h hrel hP
    simp only [writeCladeList] at h
    split at h
    · cases h
    · rename_i e1 stA hc
      split at h
      · cases h
      · rename_i es2 stB hrest
        simp only [Option.some.injEq, Prod.mk.injEq] at h
        obtain ⟨rfl, rfl⟩ := h
        obtain ⟨stA2, hc2, relA⟩ :=
          hcs t (List.mem_cons_self t ts) _ _ st2 _ _ hc hrel hP
        have hPA : ∀ m, P m → gNames d.vdata ewa nna m ∨ m ∈ stA.bl := by
          intro m hPm
          rcases hP m hPm with hg | hst
          · exact Or.inl hg
          · exact Or.inr (stExt_mem (writeClade_stExt t _ _ _ _ hc) hst)
        obtain ⟨stB2, hrest2, relB⟩ :=
          ih (fun t' ht' => hcs t' (List.mem_cons_of_mem t ht')) hrest relA hPA
        refine ⟨stB2, ?_, relB⟩
        simp only [writeCladeList, hc2, hrest2]

/-- The clade writer produces the same element from two states whose
Blacklist memberships differ only by names the fixed steps insert anyway. -/
theorem writeClade_congr {d : TreeData} {ewa nna : Option Column}
    {nnaIdx : Option Nat} {P : String → Prop} :
    ∀ t, ∀ parent st1 st2 e st1',
      writeClade d ewa nna nnaIdx parent t st1 = some (e, st1') →
      (∀ m, m ∈ st2.bl ↔ m ∈ st1.bl ∨ P m) →
      (∀ m, P m → gNames d.vdata ewa nna m ∨ m ∈ st1.bl) →
      ∃ st2', writeClade d ewa nna nnaIdx parent t st2 = some (e, st2') ∧
        ∀ m, m ∈ st2'.bl ↔ m ∈ st1'.bl ∨ P m := by
  refine RTree.myInd ?_
  intro v cs ih parent st1 st2 e st1' h hrel hP
  simp only [writeClade] at h
  split at h
  · cases h
  · rename_i a1 stA h1
    split at h
    · cases h
    · rename_i n2 stB h2
      split at h
      · cases h
      · rename_i c3 stC h3
        split at h
        · cases h
        · rename_i l4 stD h4
          split at h
          · cases h
          · rename_i p5 stE h5
            split at h
            · cases h
            · rename_i k6 stF h6
              simp only [Option.some.injEq, Prod.mk.injEq] at h
              obtain ⟨rfl, rfl⟩ := (⟨h.1.symm, h.2⟩ : _ ∧ _)
              obtain ⟨stA2, h1b⟩ := writeBranchLength_transfer h1 st2
              obtain ⟨stB2, h2b⟩ := writeNameElem_transfer h2 stA2
              obtain ⟨stC2, h3b⟩ := writeConfidence_transfer h3 stB2
              obtain ⟨stD2, h4b⟩ := writeColor_transfer h4 stC2
              have r1 := (writeBranchLength_state h1).2
              have r1b := (writeBranchLength_state h1b).2
              have r2 := (writeNameElem_state h2).2
              have r2b := (writeNameElem_state h2b).2
              have r3 := (writeConfidence_state h3).2
              have r3b := (writeConfidence_state h3b).2
              have r4 := (writeColor_state h4).2
              have r4b := (writeColor_state h4b).2
              have relA : ∀ m, m ∈ stA2.bl ↔ m ∈ stA.bl ∨ P m := by
                intro m
                rw [r1b m, hrel m, r1 m]
                exact or_rot
              have relB : ∀ m, m ∈ stB2.bl ↔ m ∈ stB.bl ∨ P m := by
                intro m
                rw [r2b m, relA m, r2 m]
                exact or_rot
              have relC : ∀ m, m ∈ stC2.bl ↔ m ∈ stC.bl ∨ P m := by
                intro m
                rw [r3b m, relB m, r3 m]
                exact or_rot
              have relD : ∀ m, m ∈ stD2.bl ↔ m ∈ stD.bl ∨ P m := by
                intro m
                rw [r4b m, relC m, r4 m]
                exact or_rot
              have heq : ∀ m, m ∈ stD.bl ↔ m ∈ stD2.bl := by
                intro m
                constructor
                · intro hm
                  exact (relD m).mpr (Or.inl hm)
                · intro hm
                  rcases (relD m).mp hm with hm' | hPm
                  · exact hm'
                  · rcases hP m hPm with hg | hst1
                    · exact steps_mem h1 h2 h3 h4 m (Or.inr hg)
                    · exact steps_mem h1 h2 h3 h4 m (Or.inl hst1)
              obtain ⟨stE2, h5b, hblE2⟩ := propScan_congr h5 heq
              obtain ⟨hblE, -⟩ := propScan_char h5
              have relE : ∀ m, m ∈ stE2.bl ↔ m ∈ stE.bl ∨ P m := by
                intro m
                rw [hblE2, hblE, ← heq m]
                constructor
                · exact Or.inl
                · rintro (hm | hPm)
                  · exact hm
                  · rcases hP m hPm with hg | hst1
                    · exact steps_mem h1 h2 h3 h4 m (Or.inr hg)
                    · exact steps_mem h1 h2 h3 h4 m (Or.inl hst1)
              have hPE : ∀ m, P m → gNames d.vdata ewa nna m ∨ m ∈ stE.bl := by
                intro m hPm
                rcases hP m hPm with hg | hst1
                · exact Or.inl hg
                · refine Or.inr ?_
                  rw [hblE]
                  exact steps_mem h1 h2 h3 h4 m (Or.inl hst1)
              obtain ⟨stF2, h6b, relF⟩ :=
                writeCladeList_congr_aux (fun t' ht' => ih t' ht') h6 relE hPE
              refine ⟨stF2, ?_, relF⟩
              simp only [writeClade, h1b, h2b, h3b, h4b, h5b, h6b]

/-- C8.  Running the writer twice on the same unmodified tree with the same
configuration produces the same return value and the identical document both
times: column iteration is the stable index order, and the instance-held
Blacklist surviving the first run does not change what the second run
emits. -/
theorem C8_determinism :
    ∀ w d root ef r1 dc1 w1 tr1,
      writeData w d root false ef = some (r1, dc1, w1, tr1) →
      ∃ w2 tr2, writeData w1 d root false ef = some (r1, dc1, w2, tr2) := by
  intro w d root ef r1 dc1 w1 tr1 h
  simp only [writeData, Bool.false_eq_true, if_false] at h
  split at h
  · cases h
  · rename_i els1 st1 h1
    split at h
    · cases h
    · rename_i els2 st2 h2
      split at h
      · cases h
      · rename_i els3 st3 h3
        split at h
        · cases h
        · rename_i els4 st4 h4
          split at h
          · cases h
          · rename_i ce st5 h5
            simp only [Option.some.injEq, Prod.mk.injEq] at h
            obtain ⟨rfl, rfl, rfl, rfl⟩ := h
            obtain ⟨d1, hb1, he1, -, -, hsh1⟩ := writeTreeLevelElement_char h1
            obtain ⟨d2, hb2, he2, -, -, hsh2⟩ := writeTreeLevelElement_char h2
            obtain ⟨d3, hb3, he3, -, -, hsh3⟩ := writeTreeLevelElement_char h3
            obtain ⟨d4, dem4, hb4, he4, -, -, -, hsh4⟩ := writeTreeProps_char h4
            have g1 := hsh1 ⟨st5.bl, ([] : List (String × Option Nat))⟩
            have g2 := hsh2 ⟨st5.bl ++ d1, ([] : List (String × Option Nat))⟩
            have g3 := hsh3 ⟨st5.bl ++ d1 ++ d2, ([] : List (String × Option Nat))⟩
            have g4 := hsh4 ⟨st5.bl ++ d1 ++ d2 ++ d3, ([] : List (String × Option Nat))⟩
            have hst4bl : st4.bl = (⟨w.blacklist, []⟩ : WState).bl ++ d1 ++ d2 ++ d3 ++ d4 := by
              rw [hb4, hb3, hb2, hb1]
            have hsub5 := writeClade_bl_subset root none st4 ce st5 h5
            have hmono5 := writeClade_stExt root none st4 ce st5 h5
            have hgmem : ∀ m, gNames d.vdata (findArray d.edata w.edgeWeightArrayName)
                ((findArrayIdx d.vdata w.nodeNameArrayName).bind (fun i => d.vdata[i]?)) m →
                m ∈ st5.bl := fun m hg =>
              (writeClade_master root none st4 ce st5 h5 (Or.inr hg)).1
            have hrel : ∀ m, m ∈ (⟨st5.bl ++ d1 ++ d2 ++ d3 ++ d4, dem4⟩ : WState).bl ↔
                m ∈ st4.bl ∨ gNames d.vdata (findArray d.edata w.edgeWeightArrayName)
                  ((findArrayIdx d.vdata w.nodeNameArrayName).bind (fun i => d.vdata[i]?)) m := by
              intro m
              show m ∈ st5.bl ++ d1 ++ d2 ++ d3 ++ d4 ↔ _
              constructor
              · intro hm
                simp only [List.mem_append] at hm
                rcases hm with (((hm5 | hd) | hd) | hd) | hd
                · exact hsub5 m hm5
                · refine Or.inl ?_
                  rw [hst4bl]
                  simp only [List.mem_append]
                  tauto
                · refine Or.inl ?_
                  rw [hst4bl]
                  simp only [List.mem_append]
                  tauto
                · refine Or.inl ?_
                  rw [hst4bl]
                  simp only [List.mem_append]
                  tauto
                · refine Or.inl ?_
                  rw [hst4bl]
                  simp only [List.mem_append]
                  tauto
              · intro hm
                simp only [List.mem_append]
                rcases hm with hm4 | hg
                · exact Or.inl (Or.inl (Or.inl (Or.inl (stExt_mem hmono5 hm4))))
                · exact Or.inl (Or.inl (Or.inl (Or.inl (hgmem m hg))))
            obtain ⟨stF2, h5b, -⟩ :=
              writeClade_congr root none st4 ⟨st5.bl ++ d1 ++ d2 ++ d3 ++ d4, dem4⟩
                ce st5 h5 hrel (fun m hg => Or.inl hg)
            refine ⟨⟨w.edgeWeightArrayName, w.nodeNameArrayName, stF2.bl,
              ((w.errorCode || ef) || ef)⟩, stF2.emitted, ?_⟩
            simp only [writeData, Bool.false_eq_true, if_false, g1, g2, g3, g4,
              List.nil_append, h5b]

/-- C8 witness: the tree with a phylogeny.name column; the second run
(starting from the carried non-empty Blacklist) produces the same return
value and the identical document. -/
theorem C8_determinism_witness :
    ∃ w2 tr2, writeData ⟨"weight", "node name", ["phylogeny.name"], false⟩
      c6td (.node 0 []) false false =
      some (1, some (XMLElem.elem "phylogeny" [("rooted", "true")] ""
        [XMLElem.elem "name" [] "Primate" [], XMLElem.elem "clade" [] "" []]),
        w2, tr2) :=
  C8_determinism newWriter c6td (.node 0 []) false 1
    (some (XMLElem.elem "phylogeny" [("rooted", "true")] ""
      [XMLElem.elem "name" [] "Primate" [], XMLElem.elem "clade" [] "" []]))
    ⟨"weight", "node name", ["phylogeny.name"], false⟩ [] rfl
